import Mathlib

/-
Verification of the Hebrew inverse-text-normalization grammar package
(nemo_text_processing/inverse_text_normalization/he).

The source builds pynini weighted finite-state transducers from a small set
of combinators (cross products, character classes, concatenation, union,
closure, weighted alternation, composition).  We embed exactly those
combinators as an expression datatype together with a weighted relational
semantics: a path of the transducer corresponds to a derivation of the
inductive predicate Accepts.  Weights live in the tropical semiring (they
add along a path; shortest-weighted-path selection minimizes the total)
and are stored as integers in hundredths, so the source weight 1.01 is the
integer 101 and -0.7 is -70.
-/

/-- Expressions denoting the pynini transducers built by the source.
cross i o is pynini.cross (and covers acceptors, pynutil.insert and
pynutil.delete as special cases); cls p is a one-character identity
class (byte.DIGIT, NEMO_NOT_QUOTE, ...); star is pynini.closure;
weight q is pynutil.add_weight with q in hundredths; comp is
pynini composition; silence erases the output side (used for
pynutil.delete of a whole sub-language, e.g. delete_space); mapOut f
is composition with a cdrewrite that rewrites every output character
through f. -/
inductive Fst : Type where
  | cross (inp out : List Char)
  | cls (p : Char → Bool)
  | seq (a b : Fst)
  | union (a b : Fst)
  | star (a : Fst)
  | weight (q : Int) (a : Fst)
  | comp (a b : Fst)
  | silence (a : Fst)
  | mapOut (f : Char → Char) (a : Fst)

/-- Weighted path semantics of an Fst expression: Accepts f i o w holds when
the transducer denoted by f has an accepting path with input string i,
output string o and total path weight w (tropical semiring: weights add
along a path). -/
inductive Accepts : Fst → List Char → List Char → Int → Prop where
  | cross {i o : List Char} : Accepts (.cross i o) i o 0
  | cls {p : Char → Bool} {c : Char} : p c = true → Accepts (.cls p) [c] [c] 0
  | seq {a b : Fst} {i1 o1 i2 o2 : List Char} {w1 w2 : Int} :
      Accepts a i1 o1 w1 → Accepts b i2 o2 w2 →
      Accepts (.seq a b) (i1 ++ i2) (o1 ++ o2) (w1 + w2)
  | unionL {a b : Fst} {i o : List Char} {w : Int} :
      Accepts a i o w → Accepts (.union a b) i o w
  | unionR {a b : Fst} {i o : List Char} {w : Int} :
      Accepts b i o w → Accepts (.union a b) i o w
  | starNil {a : Fst} : Accepts (.star a) [] [] 0
  | starCons {a : Fst} {i1 o1 i2 o2 : List Char} {w1 w2 : Int} :
      Accepts a i1 o1 w1 → Accepts (.star a) i2 o2 w2 →
      Accepts (.star a) (i1 ++ i2) (o1 ++ o2) (w1 + w2)
  | weight {a : Fst} {i o : List Char} {w q : Int} :
      Accepts a i o w → Accepts (.weight q a) i o (w + q)
  | comp {a b : Fst} {i m o : List Char} {w1 w2 : Int} :
      Accepts a i m w1 → Accepts b m o w2 → Accepts (.comp a b) i o (w1 + w2)
  | silence {a : Fst} {i o : List Char} {w : Int} :
      Accepts a i o w → Accepts (.silence a) i [] w
  | mapOut {f : Char → Char} {a : Fst} {i o : List Char} {w : Int} :
      Accepts a i o w → Accepts (.mapOut f a) i (o.map f) w

/-- Shorthand for turning a string literal into the character lists the
semantics works with. -/
def toL (s : String) : List Char := s.toList

/-- pynini acceptor: accepts exactly s and echoes it. -/
def accep (s : String) : Fst := .cross (toL s) (toL s)

/-- pynutil.insert: consumes nothing, emits s. -/
def insertF (s : String) : Fst := .cross [] (toL s)

/-- pynutil.delete: consumes exactly s, emits nothing. -/
def deleteF (s : String) : Fst := .cross (toL s) []

/-- pynini.cross on two string literals. -/
def crossF (a b : String) : Fst := .cross (toL a) (toL b)

/-- pynini.closure(a, 0, 1). -/
def opt (a : Fst) : Fst := .union (.cross [] []) a

/-- pynini.closure(a, 1): one or more repetitions. -/
def plus (a : Fst) : Fst := .seq a (.star a)

/-- The empty transducer (accepts nothing); identity of union, used as the
base of string maps. -/
def failF : Fst := .cls fun _ => false

/-- pynini.string_map on a list of (input, output) pairs. -/
def stringMapF (ps : List (String × String)) : Fst :=
  ps.foldr (fun p k => .union (crossF p.1 p.2) k) failF

/-- pynini.invert of a string map: swap the two columns. -/
def invertMapF (ps : List (String × String)) : Fst :=
  stringMapF (ps.map fun p => (p.2, p.1))

/-
Character classes and whitespace helpers of
nemo_text_processing/inverse_text_normalization/he/graph_utils.py.
-/

/-- The non-breaking space character U+00A0 (NEMO_NON_BREAKING_SPACE). -/
def nbspChar : Char := Char.ofNat 160

/-- The double-quote character. -/
def quoteChar : Char := Char.ofNat 34

/-- Membership in NEMO_WHITE_SPACE: space, tab, newline, carriage return or
non-breaking space. -/
def isWS (c : Char) : Bool :=
  c = ' ' || c = Char.ofNat 9 || c = Char.ofNat 10 || c = Char.ofNat 13 || c = nbspChar

/-- byte.DIGIT (NEMO_DIGIT). -/
def NEMO_DIGIT : Fst := .cls Char.isDigit

/-- NEMO_NOT_QUOTE: any character except the double quote. -/
def NEMO_NOT_QUOTE : Fst := .cls fun c => c != quoteChar

/-- NEMO_NOT_SPACE: any character not in NEMO_WHITE_SPACE. -/
def NEMO_NOT_SPACE : Fst := .cls fun c => !(isWS c)

/-- delete_space: pynutil.delete(pynini.closure(NEMO_WHITE_SPACE)). -/
def delete_space : Fst := .silence (.star (.cls isWS))

/-- delete_zero_or_one_space: pynutil.delete(closure(NEMO_WHITE_SPACE, 0, 1)). -/
def delete_zero_or_one_space : Fst := .silence (opt (.cls isWS))

/-- insert_space: pynutil.insert(" "). -/
def insert_space : Fst := insertF " "

/-- delete_extra_space: pynini.cross(closure(NEMO_WHITE_SPACE, 1), " "). -/
def delete_extra_space : Fst := .seq (.silence (plus (.cls isWS))) (insertF " ")

/-- delete_and: pynini.cross("ו", ""). -/
def delete_and : Fst := crossF "ו" ""

/-- GraphFst.add_tokens: insert(name + " { ") + fst + insert(" }"). -/
def add_tokens (name : String) (f : Fst) : Fst :=
  .seq (insertF (name ++ " \x7b ")) (.seq f (insertF " \x7d"))

/-- The character rewrite performed by the final cdrewrite pass of
GraphFst.delete_tokens: non-breaking spaces become ordinary spaces. -/
def convert_nbsp (c : Char) : Char := if c = nbspChar then ' ' else c

/-- GraphFst.delete_tokens: delete(name) + delete_space + delete("{") +
delete_space + fst + delete_space + delete("}"), then the cdrewrite pass
rewriting every residual non-breaking space of the output to a space. -/
def delete_tokens (name : String) (f : Fst) : Fst :=
  .mapOut convert_nbsp
    (.seq (deleteF name)
      (.seq delete_space
        (.seq (deleteF "\x7b")
          (.seq delete_space
            (.seq f
              (.seq delete_space (deleteF "\x7d")))))))

/-
Inversion lemmas for the semantics: one per combinator shape.
-/

theorem accepts_cross_inv {a b i o : List Char} {w : Int}
    (h : Accepts (.cross a b) i o w) : i = a ∧ o = b ∧ w = 0 := by
  cases h; exact ⟨rfl, rfl, rfl⟩

theorem accepts_cls_inv {p : Char → Bool} {i o : List Char} {w : Int}
    (h : Accepts (.cls p) i o w) :
    ∃ c, p c = true ∧ i = [c] ∧ o = [c] ∧ w = 0 := by
  cases h with
  | cls hp => exact ⟨_, hp, rfl, rfl, rfl⟩

theorem accepts_seq_inv {a b : Fst} {i o : List Char} {w : Int}
    (h : Accepts (.seq a b) i o w) :
    ∃ i1 o1 w1 i2 o2 w2, Accepts a i1 o1 w1 ∧ Accepts b i2 o2 w2 ∧
      i = i1 ++ i2 ∧ o = o1 ++ o2 ∧ w = w1 + w2 := by
  cases h with
  | seq h1 h2 => exact ⟨_, _, _, _, _, _, h1, h2, rfl, rfl, rfl⟩

theorem accepts_union_inv {a b : Fst} {i o : List Char} {w : Int}
    (h : Accepts (.union a b) i o w) : Accepts a i o w ∨ Accepts b i o w := by
  cases h with
  | unionL h => exact Or.inl h
  | unionR h => exact Or.inr h

theorem accepts_weight_inv {a : Fst} {q : Int} {i o : List Char} {w : Int}
    (h : Accepts (.weight q a) i o w) : ∃ w0, Accepts a i o w0 ∧ w = w0 + q := by
  cases h with
  | weight h => exact ⟨_, h, rfl⟩

theorem accepts_comp_inv {a b : Fst} {i o : List Char} {w : Int}
    (h : Accepts (.comp a b) i o w) :
    ∃ m w1 w2, Accepts a i m w1 ∧ Accepts b m o w2 ∧ w = w1 + w2 := by
  cases h with
  | comp h1 h2 => exact ⟨_, _, _, h1, h2, rfl⟩

theorem accepts_silence_inv {a : Fst} {i o : List Char} {w : Int}
    (h : Accepts (.silence a) i o w) : ∃ o0, Accepts a i o0 w ∧ o = [] := by
  cases h with
  | silence h => exact ⟨_, h, rfl⟩

theorem accepts_mapOut_inv {f : Char → Char} {a : Fst} {i o : List Char} {w : Int}
    (h : Accepts (.mapOut f a) i o w) : ∃ o0, Accepts a i o0 w ∧ o = o0.map f := by
  cases h with
  | mapOut h => exact ⟨_, h, rfl⟩

theorem accepts_opt_inv {a : Fst} {i o : List Char} {w : Int}
    (h : Accepts (opt a) i o w) : (i = [] ∧ o = [] ∧ w = 0) ∨ Accepts a i o w := by
  rcases accepts_union_inv h with h | h
  · rcases accepts_cross_inv h with ⟨h1, h2, h3⟩; exact Or.inl ⟨h1, h2, h3⟩
  · exact Or.inr h

/-- Rule-induction principle for closures with the transducer index fixed. -/
theorem accepts_star_ind {a : Fst} {P : List Char → List Char → Int → Prop}
    (nil : P [] [] 0)
    (cons : ∀ i1 o1 w1 i2 o2 w2, Accepts a i1 o1 w1 → Accepts (.star a) i2 o2 w2 →
      P i2 o2 w2 → P (i1 ++ i2) (o1 ++ o2) (w1 + w2)) :
    ∀ i o w, Accepts (.star a) i o w → P i o w := by
  suffices h : ∀ f i o w, Accepts f i o w → f = .star a → P i o w by
    intro i o w hi; exact h _ i o w hi rfl
  intro f i o w h
  induction h with
  | starNil => intro he; cases he; exact nil
  | starCons h1 h2 ih1 ih2 =>
      intro he; cases he
      exact cons _ _ _ _ _ _ h1 h2 (ih2 rfl)
  | cross => intro he; cases he
  | cls _ => intro he; cases he
  | seq _ _ _ _ => intro he; cases he
  | unionL _ _ => intro he; cases he
  | unionR _ _ => intro he; cases he
  | weight _ _ => intro he; cases he
  | comp _ _ _ _ => intro he; cases he
  | silence _ _ => intro he; cases he
  | mapOut _ _ => intro he; cases he

/-- A closure over a character class is an identity transduction of weight 0
on strings all of whose characters satisfy the class. -/
theorem accepts_star_cls_inv {p : Char → Bool} {i o : List Char} {w : Int}
    (h : Accepts (.star (.cls p)) i o w) :
    o = i ∧ w = 0 ∧ ∀ c ∈ i, p c = true := by
  refine accepts_star_ind (P := fun i o w => o = i ∧ w = 0 ∧ ∀ c ∈ i, p c = true) ?_ ?_ i o w h
  · exact ⟨rfl, rfl, by intro c hc; cases hc⟩
  · intro i1 o1 w1 i2 o2 w2 h1 _ ih
    rcases accepts_cls_inv h1 with ⟨c, hp, hi, ho, hw⟩
    rcases ih with ⟨ho2, hw2, hall⟩
    subst hi ho hw ho2 hw2
    refine ⟨rfl, rfl, ?_⟩
    intro d hd
    rcases List.mem_append.mp hd with hd | hd
    · rcases List.mem_singleton.mp hd with rfl; exact hp
    · exact hall d hd

theorem accepts_delete_space_inv {i o : List Char} {w : Int}
    (h : Accepts delete_space i o w) :
    o = [] ∧ w = 0 ∧ ∀ c ∈ i, isWS c = true := by
  rcases accepts_silence_inv h with ⟨o0, h0, rfl⟩
  rcases accepts_star_cls_inv h0 with ⟨_, hw, hall⟩
  exact ⟨rfl, hw, hall⟩

theorem accepts_delete_zero_or_one_space_inv {i o : List Char} {w : Int}
    (h : Accepts delete_zero_or_one_space i o w) :
    o = [] ∧ w = 0 ∧ ∀ c ∈ i, isWS c = true := by
  rcases accepts_silence_inv h with ⟨o0, h0, rfl⟩
  rcases accepts_opt_inv h0 with ⟨rfl, _, rfl⟩ | h0
  · exact ⟨rfl, rfl, by intro c hc; cases hc⟩
  · rcases accepts_cls_inv h0 with ⟨c, hp, rfl, rfl, rfl⟩
    refine ⟨rfl, rfl, ?_⟩
    intro d hd; rcases List.mem_singleton.mp hd with rfl; exact hp

/-- Construction lemma for string maps. -/
theorem accepts_stringMap_of_mem {ps : List (String × String)} {p : String × String}
    (hp : p ∈ ps) : Accepts (stringMapF ps) (toL p.1) (toL p.2) 0 := by
  induction ps with
  | nil => cases hp
  | cons q ps ih =>
      rcases List.mem_cons.mp hp with rfl | hp
      · exact Accepts.unionL Accepts.cross
      · exact Accepts.unionR (ih hp)

/-- Inversion lemma for string maps: an accepting path picks out one row of
the table, with weight 0. -/
theorem accepts_stringMap_inv {ps : List (String × String)} {i o : List Char} {w : Int}
    (h : Accepts (stringMapF ps) i o w) :
    ∃ p ∈ ps, i = toL p.1 ∧ o = toL p.2 ∧ w = 0 := by
  induction ps with
  | nil =>
      rcases accepts_cls_inv h with ⟨c, hc, _⟩
      simp at hc
  | cons q ps ih =>
      rcases accepts_union_inv h with h | h
      · rcases accepts_cross_inv h with ⟨h1, h2, h3⟩
        exact ⟨q, List.mem_cons_self q ps, h1, h2, h3⟩
      · rcases ih h with ⟨p, hp, h1, h2, h3⟩
        exact ⟨p, List.mem_cons_of_mem q hp, h1, h2, h3⟩

/-
An executable enumerator of accepting paths.  run f s lists every triple
(rest, output, weight) such that f accepts a prefix of s (with rest the
unconsumed suffix); runExact keeps the paths consuming all of s.  It is
proved sound unconditionally, and complete for expressions whose closures
have bodies consuming at least one input character (starsOK), which holds
for every grammar in this development.
-/

/-- Iterate the closure of a sub-runner ra; fuel bounds the number of
consuming iterations. -/
def runStar (ra : List Char → List (List Char × List Char × Int)) :
    Nat → List Char → List (List Char × List Char × Int)
  | 0, s => [(s, [], 0)]
  | fuel + 1, s =>
      (s, [], 0) :: (ra s).flatMap fun t =>
        if t.1.length < s.length then
          (runStar ra fuel t.1).map fun u => (u.1, t.2.1 ++ u.2.1, t.2.2 + u.2.2)
        else []

/-- Enumerate the accepting paths of f on prefixes of s. -/
def run : Fst → List Char → List (List Char × List Char × Int)
  | .cross i o, s => if i.isPrefixOf s then [(s.drop i.length, o, 0)] else []
  | .cls p, s =>
      match s with
      | [] => []
      | c :: r => if p c then [(r, [c], 0)] else []
  | .seq a b, s =>
      (run a s).flatMap fun t =>
        (run b t.1).map fun u => (u.1, t.2.1 ++ u.2.1, t.2.2 + u.2.2)
  | .union a b, s => run a s ++ run b s
  | .star a, s => runStar (run a) s.length s
  | .weight q a, s => (run a s).map fun t => (t.1, t.2.1, t.2.2 + q)
  | .comp a b, s =>
      (run a s).flatMap fun t =>
        (run b t.2.1).filterMap fun u =>
          if u.1 = [] then some (t.1, u.2.1, t.2.2 + u.2.2) else none
  | .silence a, s => (run a s).map fun t => (t.1, [], t.2.2)
  | .mapOut f a, s => (run a s).map fun t => (t.1, t.2.1.map f, t.2.2)

/-- Accepting paths of f that consume all of s: (output, weight) pairs. -/
def runExact (f : Fst) (s : List Char) : List (List Char × Int) :=
  (run f s).filterMap fun t => if t.1 = [] then some (t.2.1, t.2.2) else none

/-- Lower bound on the number of input characters any accepting path of an
expression must consume (0 where no useful bound holds). -/
def minIn : Fst → Nat
  | .cross i _ => i.length
  | .cls _ => 1
  | .seq a b => minIn a + minIn b
  | .union a b => min (minIn a) (minIn b)
  | .star _ => 0
  | .weight _ a => minIn a
  | .comp a _ => minIn a
  | .silence a => minIn a
  | .mapOut _ a => minIn a

/-- Every closure body in the expression consumes at least one input
character; under this condition the enumerator is complete. -/
def starsOK : Fst → Bool
  | .cross _ _ => true
  | .cls _ => true
  | .seq a b => starsOK a && starsOK b
  | .union a b => starsOK a && starsOK b
  | .star a => decide (1 ≤ minIn a) && starsOK a
  | .weight _ a => starsOK a
  | .comp a b => starsOK a && starsOK b
  | .silence a => starsOK a
  | .mapOut _ a => starsOK a

theorem minIn_le_of_accepts {f : Fst} {i o : List Char} {w : Int}
    (h : Accepts f i o w) : minIn f ≤ i.length := by
  induction h with
  | cross => simp [minIn]
  | cls _ => simp [minIn]
  | seq _ _ ih1 ih2 => simpa [minIn] using Nat.add_le_add ih1 ih2
  | unionL _ ih => exact le_trans (by simp [minIn]) ih
  | unionR _ ih => exact le_trans (by simp [minIn]) ih
  | starNil => simp [minIn]
  | starCons _ _ _ _ => simp [minIn]
  | weight _ ih => exact ih
  | comp _ _ ih1 _ => exact ih1
  | silence _ ih => exact ih
  | mapOut _ ih => exact ih

theorem runStar_sound {a : Fst}
    (hra : ∀ s t, t ∈ run a s → ∃ i, s = i ++ t.1 ∧ Accepts a i t.2.1 t.2.2) :
    ∀ fuel s t, t ∈ runStar (run a) fuel s →
      ∃ i, s = i ++ t.1 ∧ Accepts (.star a) i t.2.1 t.2.2 := by
  intro fuel
  induction fuel with
  | zero =>
      intro s t ht
      rcases List.mem_singleton.mp ht with rfl
      exact ⟨[], rfl, Accepts.starNil⟩
  | succ fuel ih =>
      intro s t ht
      rcases List.mem_cons.mp ht with rfl | ht
      · exact ⟨[], rfl, Accepts.starNil⟩
      · rcases List.mem_flatMap.mp ht with ⟨t1, ht1, htin⟩
        by_cases hlt : t1.1.length < s.length
        · simp only [hlt, if_pos] at htin
          rcases List.mem_map.mp htin with ⟨u, hu, rfl⟩
          rcases hra s t1 ht1 with ⟨i1, hs, hacc1⟩
          rcases ih t1.1 u hu with ⟨i2, hs2, hacc2⟩
          refine ⟨i1 ++ i2, ?_, Accepts.starCons hacc1 hacc2⟩
          rw [hs, hs2, List.append_assoc]
        · simp [hlt] at htin

theorem run_sound {f : Fst} :
    ∀ {s t}, t ∈ run f s → ∃ i, s = i ++ t.1 ∧ Accepts f i t.2.1 t.2.2 := by
  induction f with
  | cross a b =>
      intro s t ht
      by_cases hp : a.isPrefixOf s
      · simp only [run, hp, if_pos] at ht
        rcases List.mem_singleton.mp ht with rfl
        refine ⟨a, ?_, Accepts.cross⟩
        have := List.prefix_iff_eq_append.mp (List.isPrefixOf_iff_prefix.mp hp)
        exact this.symm
      · simp [run, hp] at ht
  | cls p =>
      intro s t ht
      match s with
      | [] => simp [run] at ht
      | c :: r =>
          by_cases hp : p c
          · simp only [run, hp, if_pos] at ht
            rcases List.mem_singleton.mp ht with rfl
            exact ⟨[c], rfl, Accepts.cls hp⟩
          · simp [run, hp] at ht
  | seq a b iha ihb =>
      intro s t ht
      simp only [run] at ht
      rcases List.mem_flatMap.mp ht with ⟨t1, ht1, htin⟩
      rcases List.mem_map.mp htin with ⟨u, hu, rfl⟩
      rcases iha ht1 with ⟨i1, hs, hacc1⟩
      rcases ihb hu with ⟨i2, hs2, hacc2⟩
      refine ⟨i1 ++ i2, ?_, Accepts.seq hacc1 hacc2⟩
      rw [hs, hs2, List.append_assoc]
  | union a b iha ihb =>
      intro s t ht
      rcases List.mem_append.mp ht with ht | ht
      · rcases iha ht with ⟨i, hs, hacc⟩; exact ⟨i, hs, Accepts.unionL hacc⟩
      · rcases ihb ht with ⟨i, hs, hacc⟩; exact ⟨i, hs, Accepts.unionR hacc⟩
  | star a iha =>
      intro s t ht
      exact runStar_sound (fun s t ht => iha ht) s.length s t ht
  | weight q a iha =>
      intro s t ht
      simp only [run] at ht
      rcases List.mem_map.mp ht with ⟨u, hu, rfl⟩
      rcases iha hu with ⟨i, hs, hacc⟩
      exact ⟨i, hs, Accepts.weight hacc⟩
  | comp a b iha ihb =>
      intro s t ht
      simp only [run] at ht
      rcases List.mem_flatMap.mp ht with ⟨t1, ht1, htin⟩
      rcases List.mem_filterMap.mp htin with ⟨u, hu, heq⟩
      by_cases hnil : u.1 = []
      · simp only [hnil, if_pos] at heq
        rcases Option.some.inj heq with rfl
        rcases iha ht1 with ⟨i, hs, hacc1⟩
        rcases ihb hu with ⟨m, hm, hacc2⟩
        rw [hnil, List.append_nil] at hm
        subst hm
        exact ⟨i, hs, Accepts.comp hacc1 hacc2⟩
      · simp [hnil] at heq
  | silence a iha =>
      intro s t ht
      simp only [run] at ht
      rcases List.mem_map.mp ht with ⟨u, hu, rfl⟩
      rcases iha hu with ⟨i, hs, hacc⟩
      exact ⟨i, hs, Accepts.silence hacc⟩
  | mapOut g a iha =>
      intro s t ht
      simp only [run] at ht
      rcases List.mem_map.mp ht with ⟨u, hu, rfl⟩
      rcases iha hu with ⟨i, hs, hacc⟩
      exact ⟨i, hs, Accepts.mapOut hacc⟩

theorem runStar_complete {a : Fst}
    (hra : ∀ {i o : List Char} {w : Int} (r : List Char),
      Accepts a i o w → (r, o, w) ∈ run a (i ++ r))
    (hmin : 1 ≤ minIn a) :
    ∀ {i o : List Char} {w : Int}, Accepts (.star a) i o w →
      ∀ (r : List Char) (fuel : Nat), i.length ≤ fuel →
        (r, o, w) ∈ runStar (run a) fuel (i ++ r) := by
  intro i o w h
  refine accepts_star_ind
    (P := fun i o w => ∀ (r : List Char) (fuel : Nat), i.length ≤ fuel →
      (r, o, w) ∈ runStar (run a) fuel (i ++ r)) ?_ ?_ i o w h
  · intro r fuel _
    cases fuel with
    | zero => exact List.mem_singleton.mpr rfl
    | succ fuel => exact List.mem_cons_self _ _
  · intro i1 o1 w1 i2 o2 w2 h1 _ ih r fuel hle
    have h1len : 1 ≤ i1.length := le_trans hmin (minIn_le_of_accepts h1)
    cases fuel with
    | zero =>
        exfalso
        have : 1 ≤ (0 : Nat) := le_trans (le_trans h1len (by simp)) hle
        omega
    | succ fuel =>
        refine List.mem_cons.mpr (Or.inr ?_)
        refine List.mem_flatMap.mpr ⟨(i2 ++ r, o1, w1), ?_, ?_⟩
        · have := hra (i2 ++ r) h1
          simpa [List.append_assoc] using this
        · have hlt : (i2 ++ r).length < (i1 ++ (i2 ++ r)).length := by
            simp only [List.length_append]
            omega
          have hfuel : i2.length ≤ fuel := by
            have := hle
            simp only [List.length_append] at this
            omega
          simp only [List.append_assoc]
          rw [if_pos hlt]
          exact List.mem_map.mpr ⟨(r, o2, w2), ih r fuel hfuel, rfl⟩

theorem run_complete {f : Fst} (hok : starsOK f = true) :
    ∀ {i o : List Char} {w : Int}, Accepts f i o w →
      ∀ (r : List Char), (r, o, w) ∈ run f (i ++ r) := by
  induction f with
  | cross a b =>
      intro i o w h r
      obtain ⟨hi, ho, hw⟩ := accepts_cross_inv h
      rw [hi, ho, hw]
      have hp : List.isPrefixOf a (a ++ r) = true :=
        List.isPrefixOf_iff_prefix.mpr ⟨r, rfl⟩
      simp [run, hp]
  | cls p =>
      intro i o w h r
      rcases accepts_cls_inv h with ⟨c, hp, rfl, rfl, rfl⟩
      simp [run, hp]
  | seq a b iha ihb =>
      simp only [starsOK, Bool.and_eq_true] at hok
      intro i o w h r
      rcases accepts_seq_inv h with ⟨i1, o1, w1, i2, o2, w2, h1, h2, rfl, rfl, rfl⟩
      simp only [run]
      refine List.mem_flatMap.mpr ⟨(i2 ++ r, o1, w1), ?_, ?_⟩
      · simpa [List.append_assoc] using iha hok.1 h1 (i2 ++ r)
      · exact List.mem_map.mpr ⟨(r, o2, w2), ihb hok.2 h2 r, rfl⟩
  | union a b iha ihb =>
      simp only [starsOK, Bool.and_eq_true] at hok
      intro i o w h r
      rcases accepts_union_inv h with h | h
      · exact List.mem_append.mpr (Or.inl (iha hok.1 h r))
      · exact List.mem_append.mpr (Or.inr (ihb hok.2 h r))
  | star a iha =>
      simp only [starsOK, Bool.and_eq_true, decide_eq_true_eq] at hok
      intro i o w h r
      have := runStar_complete (a := a) (fun r' h' => iha hok.2 h' r') hok.1 h r
        (i ++ r).length (by simp)
      exact this
  | weight q a iha =>
      simp only [starsOK] at hok
      intro i o w h r
      rcases accepts_weight_inv h with ⟨w0, h0, rfl⟩
      simp only [run]
      exact List.mem_map.mpr ⟨(r, o, w0), iha hok h0 r, rfl⟩
  | comp a b iha ihb =>
      simp only [starsOK, Bool.and_eq_true] at hok
      intro i o w h r
      rcases accepts_comp_inv h with ⟨m, w1, w2, h1, h2, rfl⟩
      simp only [run]
      refine List.mem_flatMap.mpr ⟨(r, m, w1), iha hok.1 h1 r, ?_⟩
      refine List.mem_filterMap.mpr ⟨([], o, w2), ?_, ?_⟩
      · simpa using ihb hok.2 h2 []
      · simp
  | silence a iha =>
      simp only [starsOK] at hok
      intro i o w h r
      rcases accepts_silence_inv h with ⟨o0, h0, rfl⟩
      simp only [run]
      exact List.mem_map.mpr ⟨(r, o0, w), iha hok h0 r, rfl⟩
  | mapOut g a iha =>
      simp only [starsOK] at hok
      intro i o w h r
      rcases accepts_mapOut_inv h with ⟨o0, h0, rfl⟩
      simp only [run]
      exact List.mem_map.mpr ⟨(r, o0, w), iha hok h0 r, rfl⟩

theorem runExact_sound {f : Fst} {s o : List Char} {w : Int}
    (h : (o, w) ∈ runExact f s) : Accepts f s o w := by
  rcases List.mem_filterMap.mp h with ⟨t, ht, heq⟩
  by_cases hnil : t.1 = []
  · simp only [hnil, if_pos] at heq
    rcases Option.some.inj heq with heq2
    rcases run_sound ht with ⟨i, hs, hacc⟩
    rw [hnil, List.append_nil] at hs
    subst hs
    have h1 : t.2.1 = o := congrArg Prod.fst heq2
    have h2 : t.2.2 = w := congrArg Prod.snd heq2
    rw [h1, h2] at hacc
    exact hacc
  · simp [hnil] at heq

theorem runExact_complete {f : Fst} (hok : starsOK f = true)
    {s o : List Char} {w : Int} (h : Accepts f s o w) : (o, w) ∈ runExact f s := by
  have := run_complete hok h []
  rw [List.append_nil] at this
  exact List.mem_filterMap.mpr ⟨([], o, w), this, by simp⟩

/-
Lexicon tables.  The grammar code loads these from tab-separated data files
(data/prefix.tsv, data/time/*.tsv, ...) that are not part of the sources
under verification, and the number-word building blocks come from
CardinalFst / OrdinalFst / utils.integer_to_text, likewise not under src/.
They are modelled from the spec and from the worked examples in the
taggers' docstrings.
-/

/-- Modelled from the spec: data/prefix.tsv, the definite-article /
preposition prefix table (identity on single prefix letters; the docstring
examples show the letters ב and ה emitted verbatim). -/
def prefixPairs : List (String × String) :=
  [("ב", "ב"), ("ה", "ה"), ("ל", "ל"), ("מ", "מ")]

/-- Modelled from the spec: data/time/time_suffix.tsv, the
morning/afternoon/evening suffix table (docstring: בבוקר tags as
suffix "בוקר", אחרי הצהריים as "צהריים", בערב as "ערב"). -/
def timeSuffixPairs : List (String × String) :=
  [("בבוקר", "בוקר"), ("בצהריים", "צהריים"), ("אחרי הצהריים", "צהריים"),
   ("בערב", "ערב"), ("בלילה", "לילה")]

/-- Modelled from the spec: data/time/to_hour.tsv, the to-hour lexicon
"that already encodes the hour decrement" - each spoken hour word maps to
the number of the preceding hour (docstring: רבע לשש gives hours "5",
שלוש דקות לחצות gives hours "23"). -/
def toHourPairs : List (String × String) :=
  [("חצות", "23"), ("אחת", "12"), ("שתיים", "1"), ("שלוש", "2"), ("ארבע", "3"),
   ("חמש", "4"), ("שש", "5"), ("שבע", "6"), ("שמונה", "7"), ("תשע", "8"),
   ("עשר", "9"), ("אחת עשרה", "10"), ("שתים עשרה", "11")]

/-- Render a number below 100 as two digits, padding 1-9 with a zero. -/
def twoDigitOfNat (n : Nat) : String :=
  if n < 10 then "0" ++ toString n else toString n

/-- Modelled from the spec: data/time/minute_to.tsv - the dedicated
minute-to-hour lookup: a two-digit minute value m maps to 60 - m
(docstring: שלוש דקות לחצות gives minutes "57", i.e. "03" maps to "57"). -/
def minuteToPairs : List (String × String) :=
  (List.range 58).map fun k => (twoDigitOfNat (k + 2), twoDigitOfNat (58 - k))

/-- Modelled from the spec: CardinalFst().graph_no_exception (cardinal.py is
not under src/) restricted to the feminine number words the time grammar
composes it with: spoken feminine cardinal word to digit string. -/
def cardinalFemPairs : List (String × String) :=
  [("אחת", "1"), ("שתיים", "2"), ("שלוש", "3"), ("ארבע", "4"), ("חמש", "5"),
   ("שש", "6"), ("שבע", "7"), ("שמונה", "8"), ("תשע", "9"), ("עשר", "10"),
   ("אחת עשרה", "11"), ("שתים עשרה", "12"), ("שלוש עשרה", "13"),
   ("ארבע עשרה", "14"), ("חמש עשרה", "15"), ("שש עשרה", "16"),
   ("שבע עשרה", "17"), ("שמונה עשרה", "18"), ("תשע עשרה", "19"),
   ("עשרים", "20"), ("עשרים ואחת", "21"), ("עשרים וחמש", "25"),
   ("שלושים", "30"), ("שלושים וחמש", "35"), ("ארבעים", "40"),
   ("ארבעים וחמש", "45"), ("חמישים", "50"), ("חמישים וחמש", "55"),
   ("חמישים ותשע", "59")]

/-- Modelled from the spec: the feminine hour words 1-12 produced by
utils.integer_to_text (utils.py is not under src/). -/
def labels_hour : List String :=
  ["אחת", "שתיים", "שלוש", "ארבע", "חמש", "שש", "שבע", "שמונה", "תשע",
   "עשר", "אחת עשרה", "שתים עשרה"]

/-- Modelled from the spec: the feminine minute words 2-9. -/
def labels_minute_single : List String :=
  ["שתיים", "שלוש", "ארבע", "חמש", "שש", "שבע", "שמונה", "תשע"]

/-- Modelled from the spec: the feminine minute words 10-59 (the modelled
subset of cardinalFemPairs in that range). -/
def labels_minute_double : List String :=
  ["עשר", "אחת עשרה", "שתים עשרה", "שלוש עשרה", "ארבע עשרה", "חמש עשרה",
   "שש עשרה", "שבע עשרה", "שמונה עשרה", "תשע עשרה", "עשרים", "עשרים ואחת",
   "עשרים וחמש", "שלושים", "שלושים וחמש", "ארבעים", "ארבעים וחמש",
   "חמישים", "חמישים וחמש", "חמישים ותשע"]

/-- pynini.union over a list of plain strings: union of acceptors. -/
def unionAccep (ws : List String) : Fst :=
  ws.foldr (fun s k => .union (accep s) k) failF

/-
TimeFst (taggers/time.py), mirrored local by local.
-/

/-- time.py: to_hour_graph = string_file(data/time/to_hour.tsv). -/
def to_hour_graph : Fst := stringMapF toHourPairs

/-- time.py: minute_to_graph = string_file(data/time/minute_to.tsv). -/
def minute_to_graph : Fst := stringMapF minuteToPairs

/-- time.py: suffix_graph = string_file(data/time/time_suffix.tsv). -/
def suffix_graph : Fst := stringMapF timeSuffixPairs

/-- time.py: time_prefix = string_file(data/prefix.tsv). -/
def time_prefix_lex : Fst := stringMapF prefixPairs

/-- time.py: time_prefix_graph = insert("prefix: \"") + time_prefix +
insert("\"") + insert_space. -/
def time_prefix_graph : Fst :=
  .seq (insertF "prefix: \"") (.seq time_prefix_lex (.seq (insertF "\"") insert_space))

/-- time.py: optional_time_prefix_graph = closure(time_prefix_graph, 0, 1). -/
def optional_time_prefix_graph : Fst := opt time_prefix_graph

/-- time.py: graph_minute_verbose string_map. -/
def graph_minute_verbose : Fst :=
  stringMapF [("שלושת רבעי", "45"), ("חצי", "30"), ("רבע", "15"), ("עשרים", "20"),
    ("עשרה", "10"), ("חמישה", "05"), ("דקה", "01"), ("שתי", "02")]

/-- time.py: graph_minute_to_verbose string_map. -/
def graph_minute_to_verbose : Fst :=
  stringMapF [("רבע", "45"), ("עשרה", "50"), ("חמישה", "55"), ("עשרים", "40"),
    ("עשרים וחמישה", "35"), ("דקה", "59")]

/-- time.py line 75: cardinal = pynutil.add_weight(CardinalFst().graph_no_exception,
weight=-0.7); the weight is -70 in hundredths. -/
def time_cardinal : Fst := .weight (-70) (stringMapF cardinalFemPairs)

/-- time.py: midnight = string_map([("חצות", "0")]). -/
def midnight : Fst := stringMapF [("חצות", "0")]

/-- time.py: graph_hour = union(*labels_hour) @ cardinal, then |= midnight. -/
def graph_hour : Fst := .union (.comp (unionAccep labels_hour) time_cardinal) midnight

/-- time.py: add_leading_zero_to_double_digit = insert("0") + NEMO_DIGIT. -/
def add_leading_zero_to_double_digit : Fst := .seq (insertF "0") NEMO_DIGIT

/-- time.py: graph_minute_single = union(*labels_minute_single) @ cardinal @
add_leading_zero_to_double_digit. -/
def graph_minute_single : Fst :=
  .comp (.comp (unionAccep labels_minute_single) time_cardinal) add_leading_zero_to_double_digit

/-- time.py: graph_minute_double = union(*labels_minute_double) @ cardinal. -/
def graph_minute_double : Fst := .comp (unionAccep labels_minute_double) time_cardinal

/-- time.py: final_graph_hour = insert("hours: \"") + graph_hour + insert("\""). -/
def final_graph_hour : Fst :=
  .seq (insertF "hours: \"") (.seq graph_hour (insertF "\""))

/-- time.py: graph_minute = union(insert("00"), graph_minute_single,
graph_minute_double). -/
def graph_minute : Fst :=
  .union (insertF "00") (.union graph_minute_single graph_minute_double)

/-- time.py: final_suffix = delete_space + insert_space + (insert("suffix: \"")
+ suffix_graph + insert("\"")). -/
def final_suffix : Fst :=
  .seq delete_space
    (.seq insert_space
      (.seq (insertF "suffix: \"") (.seq suffix_graph (insertF "\""))))

/-- time.py lines 95-104: graph_h_and_m. -/
def graph_h_and_m : Fst :=
  .seq final_graph_hour
    (.seq delete_space
      (.seq delete_and
        (.seq insert_space
          (.seq (insertF "minutes: \"")
            (.seq (.union graph_minute_single (.union graph_minute_double graph_minute_verbose))
              (.seq (insertF "\"")
                (opt (.seq delete_space (deleteF "דקות")))))))))

/-- time.py lines 106-116: graph_special_m_to_h_suffix_time - note the
minutes field is emitted before the hours field. -/
def graph_special_m_to_h_suffix_time : Fst :=
  .seq (insertF "minutes: \"")
    (.seq graph_minute_to_verbose
      (.seq (insertF "\"")
        (.seq delete_space
          (.seq (deleteF "ל")
            (.seq insert_space
              (.seq (insertF "hours: \"") (.seq to_hour_graph (insertF "\""))))))))

/-- time.py lines 118-129: graph_m_to_h_suffix_time - minutes before hours. -/
def graph_m_to_h_suffix_time : Fst :=
  .seq (insertF "minutes: \"")
    (.seq (.comp (.union graph_minute_single graph_minute_double) minute_to_graph)
      (.seq (insertF "\"")
        (.seq (opt (.seq delete_space (deleteF "דקות")))
          (.seq delete_space
            (.seq (deleteF "ל")
              (.seq insert_space
                (.seq (insertF "hours: \"") (.seq to_hour_graph (insertF "\"")))))))))

/-- time.py lines 131-140: graph_h (hour plus minutes plus mandatory suffix). -/
def graph_h : Fst :=
  .seq optional_time_prefix_graph
    (.seq delete_zero_or_one_space
      (.seq final_graph_hour
        (.seq delete_extra_space
          (.seq (insertF "minutes: \"")
            (.seq (.union (insertF "00") graph_minute)
              (.seq (insertF "\"") final_suffix))))))

/-- time.py lines 142-152: midnight_graph - note it carries its own optional
prefix in addition to the one final_graph_midnight adds around it. -/
def midnight_graph : Fst :=
  .seq optional_time_prefix_graph
    (.seq delete_zero_or_one_space
      (.seq (insertF "hours: \"")
        (.seq midnight
          (.seq (insertF "\"")
            (.seq insert_space
              (.seq (insertF "minutes: \"")
                (.seq (.union (insertF "00") graph_minute) (insertF "\""))))))))

/-- time.py lines 154-165: graph_midnight_and_m. -/
def graph_midnight_and_m : Fst :=
  .seq (insertF "hours: \"")
    (.seq midnight
      (.seq (insertF "\"")
        (.seq delete_space
          (.seq delete_and
            (.seq insert_space
              (.seq (insertF "minutes: \"")
                (.seq (.union graph_minute_single (.union graph_minute_double graph_minute_verbose))
                  (.seq (insertF "\"")
                    (opt (.seq delete_space (deleteF "דקות")))))))))))

/-- time.py lines 167-177: to_midnight_verbose_graph; the source expression
is token-for-token the same as graph_special_m_to_h_suffix_time (in
particular it uses the full to_hour_graph, not only the midnight row). -/
def to_midnight_verbose_graph : Fst := graph_special_m_to_h_suffix_time

/-- time.py lines 179-190: graph_m_to_midnight; the source expression is
token-for-token the same as graph_m_to_h_suffix_time. -/
def graph_m_to_midnight : Fst := graph_m_to_h_suffix_time

/-- time.py lines 192-196: final_graph_midnight. -/
def final_graph_midnight : Fst :=
  .seq optional_time_prefix_graph
    (.seq delete_zero_or_one_space
      (.union midnight_graph
        (.union to_midnight_verbose_graph
          (.union graph_m_to_midnight graph_midnight_and_m))))

/-- time.py lines 198-205: final_graph before wrapping. -/
def time_final_graph_base : Fst :=
  .union
    (.seq optional_time_prefix_graph
      (.seq delete_zero_or_one_space
        (.seq
          (.union graph_h_and_m
            (.union graph_special_m_to_h_suffix_time graph_m_to_h_suffix_time))
          final_suffix)))
    (.union graph_h final_graph_midnight)

/-- time.py lines 207-208: the classifier transducer of TimeFst, with the
"time { ... }" envelope added by GraphFst.add_tokens. -/
def timeFst : Fst := add_tokens "time" time_final_graph_base

/-
Structured view of the time token's output: a time token is the envelope
"time { ... }" around a space-separated list of fields, each rendered as
name: "value".  The shape theorem below recovers this structure from any
accepting path of timeFst.
-/

/-- A field of a tagged time token. -/
inductive TField : Type where
  | pfx (v : List Char)
  | hours (v : List Char)
  | minutes (v : List Char)
  | suffix (v : List Char)
deriving DecidableEq, Repr

/-- Render one field as it appears in the tagged text. -/
def renderField : TField → List Char
  | .pfx v => toL "prefix: \"" ++ v ++ toL "\""
  | .hours v => toL "hours: \"" ++ v ++ toL "\""
  | .minutes v => toL "minutes: \"" ++ v ++ toL "\""
  | .suffix v => toL "suffix: \"" ++ v ++ toL "\""

/-- Render the tail of a field list: each remaining field is preceded by a
single separating space. -/
def sepFields : List TField → List Char
  | [] => []
  | f :: fs => toL " " ++ renderField f ++ sepFields fs

/-- Render a field list, single spaces between consecutive fields. -/
def renderFields : List TField → List Char
  | [] => []
  | f :: fs => renderField f ++ sepFields fs

/-- Render a whole time token (the add_tokens envelope around the fields). -/
def renderTimeToken (fs : List TField) : List Char :=
  toL "time \x7b " ++ renderFields fs ++ toL " \x7d"

/-- A well-formed minutes value: exactly two digit characters. -/
def goodMinute (v : List Char) : Prop :=
  v.length = 2 ∧ ∀ c ∈ v, c.isDigit = true

/-- Values must not contain the double quote (they never do; needed to read
the rendering back unambiguously). -/
def noQuote (v : List Char) : Prop := ∀ c ∈ v, c ≠ quoteChar

/-- noQuote lifted to an optional value. -/
def noQuoteO : Option (List Char) → Prop
  | none => True
  | some v => noQuote v

/-- An optional leading prefix field. -/
def optPfxF : Option (List Char) → List TField
  | none => []
  | some v => [TField.pfx v]

/-- An optional trailing suffix field. -/
def optSfxF : Option (List Char) → List TField
  | none => []
  | some v => [TField.suffix v]

/-- The field list of a time token: up to two prefix fields, hours and
minutes in either order, an optional suffix. -/
def timeBody (p q : Option (List Char)) (mFirst : Bool) (hv mv : List Char)
    (s : Option (List Char)) : List TField :=
  optPfxF p ++ optPfxF q ++
    (if mFirst then [TField.minutes mv, TField.hours hv]
     else [TField.hours hv, TField.minutes mv]) ++ optSfxF s

theorem isDigit_ne_quote {c : Char} (h : c.isDigit = true) : c ≠ quoteChar := by
  intro he
  rw [he] at h
  exact absurd h (by decide)

/-- A two-digit minutes value contains no quote. -/
theorem goodMinute_noQuote {v : List Char} (h : goodMinute v) : noQuote v :=
  fun c hc => isDigit_ne_quote (h.2 c hc)

theorem accepts_insertF_inv {s : String} {i o : List Char} {w : Int}
    (h : Accepts (insertF s) i o w) : i = [] ∧ o = toL s ∧ w = 0 :=
  accepts_cross_inv h

theorem accepts_deleteF_inv {s : String} {i o : List Char} {w : Int}
    (h : Accepts (deleteF s) i o w) : i = toL s ∧ o = [] ∧ w = 0 :=
  accepts_cross_inv h

theorem accepts_unionAccep_inv {ws : List String} {i o : List Char} {w : Int}
    (h : Accepts (unionAccep ws) i o w) :
    ∃ s ∈ ws, i = toL s ∧ o = toL s ∧ w = 0 := by
  induction ws with
  | nil =>
      rcases accepts_cls_inv h with ⟨c, hc, _⟩
      simp at hc
  | cons q ws ih =>
      rcases accepts_union_inv h with h | h
      · rcases accepts_cross_inv h with ⟨h1, h2, h3⟩
        exact ⟨q, List.mem_cons_self q ws, h1, h2, h3⟩
      · rcases ih h with ⟨s, hs, h1, h2, h3⟩
        exact ⟨s, List.mem_cons_of_mem q hs, h1, h2, h3⟩

theorem toL_inj {a b : String} (h : toL a = toL b) : a = b := by
  cases a; cases b; simpa [toL, String.toList] using congrArg String.mk h

/-
Value lemmas: outputs of the minute, hour, suffix and prefix sub-graphs.
-/

theorem graph_minute_single_out {i o : List Char} {w : Int}
    (h : Accepts graph_minute_single i o w) : goodMinute o ∧ w = -70 := by
  rcases accepts_comp_inv h with ⟨m, w1, w2, h1, h2, rfl⟩
  rcases accepts_seq_inv h2 with ⟨i1, o1, wz, i2, o2, wd, hz, hd, rfl, rfl, rfl⟩
  rcases accepts_cross_inv hz with ⟨rfl, rfl, rfl⟩
  rcases accepts_cls_inv hd with ⟨c, hc, rfl, rfl, rfl⟩
  rcases accepts_comp_inv h1 with ⟨m1, wa, wb, ha, hb, rfl⟩
  rcases accepts_unionAccep_inv ha with ⟨s, _, rfl, rfl, rfl⟩
  rcases accepts_weight_inv hb with ⟨w0, hb0, rfl⟩
  rcases accepts_stringMap_inv hb0 with ⟨p, _, _, _, rfl⟩
  refine ⟨⟨by simp [toL], ?_⟩, by omega⟩
  intro d hd
  rcases List.mem_append.mp hd with hd | hd
  · rcases List.mem_singleton.mp (by simpa [toL] using hd) with rfl; decide
  · rcases List.mem_singleton.mp hd with rfl; exact hc

theorem graph_minute_double_out {i o : List Char} {w : Int}
    (h : Accepts graph_minute_double i o w) : goodMinute o ∧ w = -70 := by
  rcases accepts_comp_inv h with ⟨m, w1, w2, h1, h2, rfl⟩
  rcases accepts_unionAccep_inv h1 with ⟨s, hs, rfl, rfl, rfl⟩
  rcases accepts_weight_inv h2 with ⟨w0, h0, rfl⟩
  rcases accepts_stringMap_inv h0 with ⟨p, hp, hin, rfl, rfl⟩
  have hs' : p.1 ∈ labels_minute_double := by
    rw [← toL_inj hin]; exact hs
  have key : ∀ p ∈ cardinalFemPairs, p.1 ∈ labels_minute_double →
      (toL p.2).length = 2 ∧ ∀ c ∈ toL p.2, c.isDigit = true := by decide
  exact ⟨key p hp hs', rfl⟩

theorem graph_minute_verbose_out {i o : List Char} {w : Int}
    (h : Accepts graph_minute_verbose i o w) : goodMinute o ∧ w = 0 := by
  rcases accepts_stringMap_inv h with ⟨p, hp, _, rfl, rfl⟩
  have key : ∀ p ∈ [("שלושת רבעי", "45"), ("חצי", "30"), ("רבע", "15"), ("עשרים", "20"),
      ("עשרה", "10"), ("חמישה", "05"), ("דקה", "01"), ("שתי", "02")],
      (toL (Prod.snd p)).length = 2 ∧ ∀ c ∈ toL (Prod.snd p), c.isDigit = true := by decide
  exact ⟨key p hp, rfl⟩

theorem minute_to_graph_out {i o : List Char} {w : Int}
    (h : Accepts minute_to_graph i o w) : goodMinute o ∧ w = 0 := by
  rcases accepts_stringMap_inv h with ⟨p, hp, _, rfl, rfl⟩
  have key : ∀ p ∈ minuteToPairs,
      (toL (Prod.snd p)).length = 2 ∧ ∀ c ∈ toL (Prod.snd p), c.isDigit = true := by decide
  exact ⟨key p hp, rfl⟩

theorem graph_minute_to_verbose_out {i o : List Char} {w : Int}
    (h : Accepts graph_minute_to_verbose i o w) : goodMinute o ∧ w = 0 := by
  rcases accepts_stringMap_inv h with ⟨p, hp, _, rfl, rfl⟩
  have key : ∀ p ∈ [("רבע", "45"), ("עשרה", "50"), ("חמישה", "55"), ("עשרים", "40"),
      ("עשרים וחמישה", "35"), ("דקה", "59")],
      (toL (Prod.snd p)).length = 2 ∧ ∀ c ∈ toL (Prod.snd p), c.isDigit = true := by decide
  exact ⟨key p hp, rfl⟩

theorem graph_minute_out {i o : List Char} {w : Int}
    (h : Accepts graph_minute i o w) : goodMinute o := by
  rcases accepts_union_inv h with h | h
  · rcases accepts_insertF_inv h with ⟨rfl, rfl, rfl⟩
    exact ⟨rfl, by decide⟩
  · rcases accepts_union_inv h with h | h
    · exact (graph_minute_single_out h).1
    · exact (graph_minute_double_out h).1

/-- The minutes alternatives used in the "and X minutes" branches. -/
theorem and_m_minutes_out {i o : List Char} {w : Int}
    (h : Accepts (.union graph_minute_single (.union graph_minute_double graph_minute_verbose)) i o w) :
    goodMinute o := by
  rcases accepts_union_inv h with h | h
  · exact (graph_minute_single_out h).1
  · rcases accepts_union_inv h with h | h
    · exact (graph_minute_double_out h).1
    · exact (graph_minute_verbose_out h).1

theorem graph_hour_out {i o : List Char} {w : Int}
    (h : Accepts graph_hour i o w) : noQuote o := by
  rcases accepts_union_inv h with h | h
  · rcases accepts_comp_inv h with ⟨m, w1, w2, h1, h2, rfl⟩
    rcases accepts_weight_inv h2 with ⟨w0, h0, rfl⟩
    rcases accepts_stringMap_inv h0 with ⟨p, hp, _, rfl, rfl⟩
    have key : ∀ p ∈ cardinalFemPairs, ∀ c ∈ toL (Prod.snd p), c ≠ quoteChar := by decide
    exact key p hp
  · rcases accepts_stringMap_inv h with ⟨p, hp, _, rfl, rfl⟩
    have key : ∀ p ∈ [("חצות", "0")], ∀ c ∈ toL (Prod.snd p), c ≠ quoteChar := by decide
    exact key p hp

theorem to_hour_graph_out {i o : List Char} {w : Int}
    (h : Accepts to_hour_graph i o w) : noQuote o ∧ w = 0 := by
  rcases accepts_stringMap_inv h with ⟨p, hp, _, rfl, rfl⟩
  have key : ∀ p ∈ toHourPairs, ∀ c ∈ toL (Prod.snd p), c ≠ quoteChar := by decide
  exact ⟨key p hp, rfl⟩

theorem suffix_graph_out {i o : List Char} {w : Int}
    (h : Accepts suffix_graph i o w) : noQuote o ∧ w = 0 := by
  rcases accepts_stringMap_inv h with ⟨p, hp, _, rfl, rfl⟩
  have key : ∀ p ∈ timeSuffixPairs, ∀ c ∈ toL (Prod.snd p), c ≠ quoteChar := by decide
  exact ⟨key p hp, rfl⟩

/-- An accepting path of the optional time prefix emits either nothing or a
rendered prefix field followed by one space. -/
theorem optional_time_prefix_out {i o : List Char} {w : Int}
    (h : Accepts optional_time_prefix_graph i o w) :
    ∃ p : Option (List Char), noQuoteO p ∧ w = 0 ∧
      o = (optPfxF p).flatMap (fun f => renderField f ++ toL " ") := by
  rcases accepts_opt_inv h with ⟨rfl, rfl, rfl⟩ | h
  · exact ⟨none, trivial, rfl, rfl⟩
  · rcases accepts_seq_inv h with ⟨i1, o1, w1, i2, o2, w2, h1, h2, rfl, rfl, rfl⟩
    rcases accepts_insertF_inv h1 with ⟨rfl, rfl, rfl⟩
    rcases accepts_seq_inv h2 with ⟨i1, o1, w1, i2, o2, w2, hlex, h3, rfl, rfl, rfl⟩
    rcases accepts_stringMap_inv hlex with ⟨p, hp, _, rfl, rfl⟩
    rcases accepts_seq_inv h3 with ⟨i1, o1, w1, i2, o2, w2, hq, hsp, rfl, rfl, rfl⟩
    rcases accepts_insertF_inv hq with ⟨rfl, rfl, rfl⟩
    rcases accepts_insertF_inv hsp with ⟨rfl, rfl, rfl⟩
    refine ⟨some (toL p.2), ?_, rfl, ?_⟩
    · have key : ∀ p ∈ prefixPairs, ∀ c ∈ toL (Prod.snd p), c ≠ quoteChar := by decide
      exact key p hp
    · simp [optPfxF, renderField, toL]

theorem toL_empty : toL "" = [] := rfl

/-- The optional trailing deletion of the word דקות emits nothing. -/
theorem accepts_opt_del_out {s : String} {i o : List Char} {w : Int}
    (h : Accepts (opt (.seq delete_space (deleteF s))) i o w) : o = [] ∧ w = 0 := by
  rcases accepts_opt_inv h with ⟨rfl, rfl, rfl⟩ | h
  · exact ⟨rfl, rfl⟩
  · rcases accepts_seq_inv h with ⟨i1, o1, w1, i2, o2, w2, h1, h2, rfl, rfl, rfl⟩
    rcases accepts_delete_space_inv h1 with ⟨rfl, rfl, _⟩
    rcases accepts_deleteF_inv h2 with ⟨rfl, rfl, rfl⟩
    exact ⟨rfl, rfl⟩

/-- final_graph_hour emits the rendered hours field. -/
theorem final_graph_hour_shape {i o : List Char} {w : Int}
    (h : Accepts final_graph_hour i o w) :
    ∃ hv, noQuote hv ∧ o = toL "hours: \"" ++ hv ++ toL "\"" := by
  rcases accepts_seq_inv h with ⟨i1, o1, w1, i2, o2, w2, h1, h2, rfl, rfl, rfl⟩
  rcases accepts_insertF_inv h1 with ⟨rfl, rfl, rfl⟩
  rcases accepts_seq_inv h2 with ⟨i1, o1, w1, i2, o2, w2, hh, hq, rfl, rfl, rfl⟩
  rcases accepts_insertF_inv hq with ⟨rfl, rfl, rfl⟩
  exact ⟨o1, graph_hour_out hh, by simp [List.append_assoc]⟩

/-- final_suffix emits one space then the rendered suffix field. -/
theorem final_suffix_shape {i o : List Char} {w : Int}
    (h : Accepts final_suffix i o w) :
    ∃ sv, noQuote sv ∧ w = 0 ∧ o = toL " " ++ toL "suffix: \"" ++ sv ++ toL "\"" := by
  rcases accepts_seq_inv h with ⟨i1, o1, w1, i2, o2, w2, h1, h2, rfl, rfl, rfl⟩
  rcases accepts_delete_space_inv h1 with ⟨rfl, rfl, _⟩
  rcases accepts_seq_inv h2 with ⟨i1, o1, w1, i2, o2, w2, hsp, h3, rfl, rfl, rfl⟩
  rcases accepts_insertF_inv hsp with ⟨rfl, rfl, rfl⟩
  rcases accepts_seq_inv h3 with ⟨i1, o1, w1, i2, o2, w2, hname, h4, rfl, rfl, rfl⟩
  rcases accepts_insertF_inv hname with ⟨rfl, rfl, rfl⟩
  rcases accepts_seq_inv h4 with ⟨i1, o1, w1, i2, o2, w2, hsf, hq, rfl, rfl, rfl⟩
  rcases accepts_insertF_inv hq with ⟨rfl, rfl, rfl⟩
  rcases suffix_graph_out hsf with ⟨hnq, _⟩
  refine ⟨o1, hnq, by omega, by simp [List.append_assoc]⟩

/-- graph_h_and_m emits hours then minutes, separated by one space. -/
theorem graph_h_and_m_shape {i o : List Char} {w : Int}
    (h : Accepts graph_h_and_m i o w) :
    ∃ hv mv, noQuote hv ∧ goodMinute mv ∧
      o = toL "hours: \"" ++ hv ++ toL "\"" ++ toL " " ++
          toL "minutes: \"" ++ mv ++ toL "\"" := by
  rcases accepts_seq_inv h with ⟨i1, o1, w1, i2, o2, w2, h1, h2, rfl, rfl, rfl⟩
  rcases final_graph_hour_shape h1 with ⟨hv, hnq, rfl⟩
  rcases accepts_seq_inv h2 with ⟨i1, o1, w1, i2, o2, w2, hds, h3, rfl, rfl, rfl⟩
  rcases accepts_delete_space_inv hds with ⟨rfl, rfl, _⟩
  rcases accepts_seq_inv h3 with ⟨i1, o1, w1, i2, o2, w2, hand, h4, rfl, rfl, rfl⟩
  rcases accepts_cross_inv hand with ⟨rfl, rfl, rfl⟩
  rcases accepts_seq_inv h4 with ⟨i1, o1, w1, i2, o2, w2, hsp, h5, rfl, rfl, rfl⟩
  rcases accepts_insertF_inv hsp with ⟨rfl, rfl, rfl⟩
  rcases accepts_seq_inv h5 with ⟨i1, o1, w1, i2, o2, w2, hname, h6, rfl, rfl, rfl⟩
  rcases accepts_insertF_inv hname with ⟨rfl, rfl, rfl⟩
  rcases accepts_seq_inv h6 with ⟨i1, o1, w1, i2, o2, w2, hmin, h7, rfl, rfl, rfl⟩
  rcases accepts_seq_inv h7 with ⟨i1, o1, w1, i2, o2, w2, hq, hopt, rfl, rfl, rfl⟩
  rcases accepts_insertF_inv hq with ⟨rfl, rfl, rfl⟩
  rcases accepts_opt_del_out hopt with ⟨rfl, rfl⟩
  exact ⟨hv, _, hnq, and_m_minutes_out hmin, by simp [toL_empty, List.append_assoc]⟩

/-- graph_special_m_to_h_suffix_time emits minutes then hours. -/
theorem graph_special_m_to_h_shape {i o : List Char} {w : Int}
    (h : Accepts graph_special_m_to_h_suffix_time i o w) :
    ∃ mv hv, goodMinute mv ∧ noQuote hv ∧
      o = toL "minutes: \"" ++ mv ++ toL "\"" ++ toL " " ++
          toL "hours: \"" ++ hv ++ toL "\"" := by
  rcases accepts_seq_inv h with ⟨i1, o1, w1, i2, o2, w2, h1, h2, rfl, rfl, rfl⟩
  rcases accepts_insertF_inv h1 with ⟨rfl, rfl, rfl⟩
  rcases accepts_seq_inv h2 with ⟨i1, o1, w1, i2, o2, w2, hmv, h3, rfl, rfl, rfl⟩
  rcases accepts_seq_inv h3 with ⟨i1, o1, w1, i2, o2, w2, hq, h4, rfl, rfl, rfl⟩
  rcases accepts_insertF_inv hq with ⟨rfl, rfl, rfl⟩
  rcases accepts_seq_inv h4 with ⟨i1, o1, w1, i2, o2, w2, hds, h5, rfl, rfl, rfl⟩
  rcases accepts_delete_space_inv hds with ⟨rfl, rfl, _⟩
  rcases accepts_seq_inv h5 with ⟨i1, o1, w1, i2, o2, w2, hdel, h6, rfl, rfl, rfl⟩
  rcases accepts_deleteF_inv hdel with ⟨rfl, rfl, rfl⟩
  rcases accepts_seq_inv h6 with ⟨i1, o1, w1, i2, o2, w2, hsp, h7, rfl, rfl, rfl⟩
  rcases accepts_insertF_inv hsp with ⟨rfl, rfl, rfl⟩
  rcases accepts_seq_inv h7 with ⟨i1, o1, w1, i2, o2, w2, hname, h8, rfl, rfl, rfl⟩
  rcases accepts_insertF_inv hname with ⟨rfl, rfl, rfl⟩
  rcases accepts_seq_inv h8 with ⟨i1, o1, w1, i2, o2, w2, hth, hq2, rfl, rfl, rfl⟩
  rcases accepts_insertF_inv hq2 with ⟨rfl, rfl, rfl⟩
  rcases to_hour_graph_out hth with ⟨hnq, _⟩
  exact ⟨_, _, (graph_minute_to_verbose_out hmv).1, hnq, by simp [List.append_assoc]⟩

/-- graph_m_to_h_suffix_time emits minutes then hours. -/
theorem graph_m_to_h_shape {i o : List Char} {w : Int}
    (h : Accepts graph_m_to_h_suffix_time i o w) :
    ∃ mv hv, goodMinute mv ∧ noQuote hv ∧
      o = toL "minutes: \"" ++ mv ++ toL "\"" ++ toL " " ++
          toL "hours: \"" ++ hv ++ toL "\"" := by
  rcases accepts_seq_inv h with ⟨i1, o1, w1, i2, o2, w2, h1, h2, rfl, rfl, rfl⟩
  rcases accepts_insertF_inv h1 with ⟨rfl, rfl, rfl⟩
  rcases accepts_seq_inv h2 with ⟨i1, o1, w1, i2, o2, w2, hmv, h3, rfl, rfl, rfl⟩
  rcases accepts_comp_inv hmv with ⟨m, wa, wb, _, hmt, rfl⟩
  rcases accepts_seq_inv h3 with ⟨i1, o1, w1, i2, o2, w2, hq, h4, rfl, rfl, rfl⟩
  rcases accepts_insertF_inv hq with ⟨rfl, rfl, rfl⟩
  rcases accepts_seq_inv h4 with ⟨i1, o1, w1, i2, o2, w2, hopt, h5, rfl, rfl, rfl⟩
  rcases accepts_opt_del_out hopt with ⟨rfl, rfl⟩
  rcases accepts_seq_inv h5 with ⟨i1, o1, w1, i2, o2, w2, hds, h6, rfl, rfl, rfl⟩
  rcases accepts_delete_space_inv hds with ⟨rfl, rfl, _⟩
  rcases accepts_seq_inv h6 with ⟨i1, o1, w1, i2, o2, w2, hdel, h7, rfl, rfl, rfl⟩
  rcases accepts_deleteF_inv hdel with ⟨rfl, rfl, rfl⟩
  rcases accepts_seq_inv h7 with ⟨i1, o1, w1, i2, o2, w2, hsp, h8, rfl, rfl, rfl⟩
  rcases accepts_insertF_inv hsp with ⟨rfl, rfl, rfl⟩
  rcases accepts_seq_inv h8 with ⟨i1, o1, w1, i2, o2, w2, hname, h9, rfl, rfl, rfl⟩
  rcases accepts_insertF_inv hname with ⟨rfl, rfl, rfl⟩
  rcases accepts_seq_inv h9 with ⟨i1, o1, w1, i2, o2, w2, hth, hq2, rfl, rfl, rfl⟩
  rcases accepts_insertF_inv hq2 with ⟨rfl, rfl, rfl⟩
  rcases to_hour_graph_out hth with ⟨hnq, _⟩
  exact ⟨_, _, (minute_to_graph_out hmt).1, hnq, by simp [toL_empty, List.append_assoc]⟩

/-- Rendering of the optional leading prefix field (with its trailing
separator space) as the grammar emits it. -/
def renderPfxOpt (p : Option (List Char)) : List Char :=
  (optPfxF p).flatMap fun f => renderField f ++ toL " "

theorem accepts_delete_extra_space_out {i o : List Char} {w : Int}
    (h : Accepts delete_extra_space i o w) : o = toL " " ∧ w = 0 := by
  rcases accepts_seq_inv h with ⟨i1, o1, w1, i2, o2, w2, h1, h2, rfl, rfl, rfl⟩
  rcases accepts_silence_inv h1 with ⟨o0, h0, rfl⟩
  rcases accepts_seq_inv h0 with ⟨i1, o1, wa, i2, o2, wb, hc, hs, rfl, rfl, rfl⟩
  rcases accepts_cls_inv hc with ⟨c, _, rfl, rfl, rfl⟩
  rcases accepts_star_cls_inv hs with ⟨rfl, rfl, _⟩
  rcases accepts_insertF_inv h2 with ⟨rfl, rfl, rfl⟩
  exact ⟨rfl, rfl⟩

theorem h_minutes_out {i o : List Char} {w : Int}
    (h : Accepts (.union (insertF "00") graph_minute) i o w) : goodMinute o := by
  rcases accepts_union_inv h with h | h
  · rcases accepts_insertF_inv h with ⟨rfl, rfl, rfl⟩
    exact ⟨rfl, by decide⟩
  · exact graph_minute_out h

/-- graph_h: optional prefix, hours, minutes, mandatory suffix. -/
theorem graph_h_shape {i o : List Char} {w : Int}
    (h : Accepts graph_h i o w) :
    ∃ p hv mv sv, noQuoteO p ∧ noQuote hv ∧ goodMinute mv ∧ noQuote sv ∧
      o = renderPfxOpt p ++ toL "hours: \"" ++ hv ++ toL "\"" ++ toL " " ++
          toL "minutes: \"" ++ mv ++ toL "\"" ++ toL " " ++
          toL "suffix: \"" ++ sv ++ toL "\"" := by
  rcases accepts_seq_inv h with ⟨i1, o1, w1, i2, o2, w2, hp, h2, rfl, rfl, rfl⟩
  rcases optional_time_prefix_out hp with ⟨p, hpq, _, rfl⟩
  rcases accepts_seq_inv h2 with ⟨i1, o1, w1, i2, o2, w2, hd01, h3, rfl, rfl, rfl⟩
  rcases accepts_delete_zero_or_one_space_inv hd01 with ⟨rfl, _, _⟩
  rcases accepts_seq_inv h3 with ⟨i1, o1, w1, i2, o2, w2, hhour, h4, rfl, rfl, rfl⟩
  rcases final_graph_hour_shape hhour with ⟨hv, hvq, rfl⟩
  rcases accepts_seq_inv h4 with ⟨i1, o1, w1, i2, o2, w2, hdes, h5, rfl, rfl, rfl⟩
  rcases accepts_delete_extra_space_out hdes with ⟨rfl, _⟩
  rcases accepts_seq_inv h5 with ⟨i1, o1, w1, i2, o2, w2, hname, h6, rfl, rfl, rfl⟩
  rcases accepts_insertF_inv hname with ⟨rfl, rfl, rfl⟩
  rcases accepts_seq_inv h6 with ⟨i1, o1, w1, i2, o2, w2, hmin, h7, rfl, rfl, rfl⟩
  rcases accepts_seq_inv h7 with ⟨i1, o1, w1, i2, o2, w2, hq, hsfx, rfl, rfl, rfl⟩
  rcases accepts_insertF_inv hq with ⟨rfl, rfl, rfl⟩
  rcases final_suffix_shape hsfx with ⟨sv, hsq, _, rfl⟩
  refine ⟨p, hv, _, sv, hpq, hvq, h_minutes_out hmin, hsq, ?_⟩
  simp [renderPfxOpt, List.append_assoc]

/-- midnight_graph: its own optional prefix, hours "0", minutes. -/
theorem midnight_graph_shape {i o : List Char} {w : Int}
    (h : Accepts midnight_graph i o w) :
    ∃ q mv, noQuoteO q ∧ goodMinute mv ∧
      o = renderPfxOpt q ++ toL "hours: \"" ++ toL "0" ++ toL "\"" ++ toL " " ++
          toL "minutes: \"" ++ mv ++ toL "\"" := by
  rcases accepts_seq_inv h with ⟨i1, o1, w1, i2, o2, w2, hp, h2, rfl, rfl, rfl⟩
  rcases optional_time_prefix_out hp with ⟨q, hpq, _, rfl⟩
  rcases accepts_seq_inv h2 with ⟨i1, o1, w1, i2, o2, w2, hd01, h3, rfl, rfl, rfl⟩
  rcases accepts_delete_zero_or_one_space_inv hd01 with ⟨rfl, _, _⟩
  rcases accepts_seq_inv h3 with ⟨i1, o1, w1, i2, o2, w2, hname, h4, rfl, rfl, rfl⟩
  rcases accepts_insertF_inv hname with ⟨rfl, rfl, rfl⟩
  rcases accepts_seq_inv h4 with ⟨i1, o1, w1, i2, o2, w2, hmid, h5, rfl, rfl, rfl⟩
  rcases accepts_stringMap_inv hmid with ⟨pr, hpr, _, rfl, rfl⟩
  rcases accepts_seq_inv h5 with ⟨i1, o1, w1, i2, o2, w2, hq, h6, rfl, rfl, rfl⟩
  rcases accepts_insertF_inv hq with ⟨rfl, rfl, rfl⟩
  rcases accepts_seq_inv h6 with ⟨i1, o1, w1, i2, o2, w2, hsp, h7, rfl, rfl, rfl⟩
  rcases accepts_insertF_inv hsp with ⟨rfl, rfl, rfl⟩
  rcases accepts_seq_inv h7 with ⟨i1, o1, w1, i2, o2, w2, hname2, h8, rfl, rfl, rfl⟩
  rcases accepts_insertF_inv hname2 with ⟨rfl, rfl, rfl⟩
  rcases accepts_seq_inv h8 with ⟨i1, o1, w1, i2, o2, w2, hmin, hq2, rfl, rfl, rfl⟩
  rcases accepts_insertF_inv hq2 with ⟨rfl, rfl, rfl⟩
  have hpr0 : toL pr.2 = toL "0" := by
    rcases List.mem_singleton.mp hpr with rfl; rfl
  refine ⟨q, _, hpq, h_minutes_out hmin, ?_⟩
  rw [hpr0]
  simp [renderPfxOpt, List.append_assoc]

/-- graph_midnight_and_m: hours "0" then minutes. -/
theorem graph_midnight_and_m_shape {i o : List Char} {w : Int}
    (h : Accepts graph_midnight_and_m i o w) :
    ∃ mv, goodMinute mv ∧
      o = toL "hours: \"" ++ toL "0" ++ toL "\"" ++ toL " " ++
          toL "minutes: \"" ++ mv ++ toL "\"" := by
  rcases accepts_seq_inv h with ⟨i1, o1, w1, i2, o2, w2, hname, h2, rfl, rfl, rfl⟩
  rcases accepts_insertF_inv hname with ⟨rfl, rfl, rfl⟩
  rcases accepts_seq_inv h2 with ⟨i1, o1, w1, i2, o2, w2, hmid, h3, rfl, rfl, rfl⟩
  rcases accepts_stringMap_inv hmid with ⟨pr, hpr, _, rfl, rfl⟩
  rcases accepts_seq_inv h3 with ⟨i1, o1, w1, i2, o2, w2, hq, h4, rfl, rfl, rfl⟩
  rcases accepts_insertF_inv hq with ⟨rfl, rfl, rfl⟩
  rcases accepts_seq_inv h4 with ⟨i1, o1, w1, i2, o2, w2, hds, h5, rfl, rfl, rfl⟩
  rcases accepts_delete_space_inv hds with ⟨rfl, rfl, _⟩
  rcases accepts_seq_inv h5 with ⟨i1, o1, w1, i2, o2, w2, hand, h6, rfl, rfl, rfl⟩
  rcases accepts_cross_inv hand with ⟨rfl, rfl, rfl⟩
  rcases accepts_seq_inv h6 with ⟨i1, o1, w1, i2, o2, w2, hsp, h7, rfl, rfl, rfl⟩
  rcases accepts_insertF_inv hsp with ⟨rfl, rfl, rfl⟩
  rcases accepts_seq_inv h7 with ⟨i1, o1, w1, i2, o2, w2, hname2, h8, rfl, rfl, rfl⟩
  rcases accepts_insertF_inv hname2 with ⟨rfl, rfl, rfl⟩
  rcases accepts_seq_inv h8 with ⟨i1, o1, w1, i2, o2, w2, hmin, h9, rfl, rfl, rfl⟩
  rcases accepts_seq_inv h9 with ⟨i1, o1, w1, i2, o2, w2, hq2, hopt, rfl, rfl, rfl⟩
  rcases accepts_insertF_inv hq2 with ⟨rfl, rfl, rfl⟩
  rcases accepts_opt_del_out hopt with ⟨rfl, rfl⟩
  have hpr0 : toL pr.2 = toL "0" := by
    rcases List.mem_singleton.mp hpr with rfl; rfl
  refine ⟨_, and_m_minutes_out hmin, ?_⟩
  rw [hpr0]
  simp [toL_empty, List.append_assoc]

/-- The structured form every output of the time classifier takes: the
"time { ... }" envelope around up to two prefix fields, hours and minutes
in one of the two orders, and an optional suffix; the minutes value is two
digits, no value contains a quote, and a second prefix can only occur in
the hours-first, suffix-free midnight form. -/
def TimeTokenShape (o : List Char) : Prop :=
  ∃ p q mFirst hv mv s,
    goodMinute mv ∧ noQuote hv ∧ noQuoteO p ∧ noQuoteO q ∧ noQuoteO s ∧
    (q = none ∨ (mFirst = false ∧ s = none ∧ hv = toL "0")) ∧
    o = renderTimeToken (timeBody p q mFirst hv mv s)

theorem toL_time_env : toL ("time" ++ " \x7b ") = toL "time \x7b " := rfl

theorem noQuote_zero : noQuote (toL "0") := by
  intro c hc
  have hz : toL "0" = ['0'] := rfl
  rw [hz] at hc
  rcases List.mem_singleton.mp hc with rfl
  decide

/-- Master shape theorem: every accepting path of the time classifier
produces an output of the form TimeTokenShape. -/
theorem timeFst_shape {i o : List Char} {w : Int}
    (h : Accepts timeFst i o w) : TimeTokenShape o := by
  rcases accepts_seq_inv h with ⟨i1, o1, w1, i2, o2, w2, henv, h2, rfl, rfl, rfl⟩
  rcases accepts_insertF_inv henv with ⟨rfl, rfl, rfl⟩
  rcases accepts_seq_inv h2 with ⟨i1, o1, w1, i2, o2, w2, hbase, hclose, rfl, rfl, rfl⟩
  rcases accepts_insertF_inv hclose with ⟨rfl, rfl, rfl⟩
  rw [toL_time_env]
  rcases accepts_union_inv hbase with hA | hBC
  · -- prefix? + (h_and_m | special | m_to_h) + final_suffix
    rcases accepts_seq_inv hA with ⟨i1, o1, w1, i2, o2, w2, hp, h3, rfl, rfl, rfl⟩
    rcases optional_time_prefix_out hp with ⟨p, hpq, _, rfl⟩
    rcases accepts_seq_inv h3 with ⟨i1, o1, w1, i2, o2, w2, hd01, h4, rfl, rfl, rfl⟩
    rcases accepts_delete_zero_or_one_space_inv hd01 with ⟨rfl, _, _⟩
    rcases accepts_seq_inv h4 with ⟨i1, o1, w1, i2, o2, w2, hmid, hsfx, rfl, rfl, rfl⟩
    rcases final_suffix_shape hsfx with ⟨sv, hsq, _, rfl⟩
    rcases accepts_union_inv hmid with hhm | hmh
    · rcases graph_h_and_m_shape hhm with ⟨hv, mv, hvq, hmv, rfl⟩
      refine ⟨p, none, false, hv, mv, some sv, hmv, hvq, hpq, trivial, hsq, Or.inl rfl, ?_⟩
      cases p <;>
        simp [renderPfxOpt, renderTimeToken, timeBody, optPfxF, optSfxF,
          renderFields, sepFields, renderField, List.append_assoc]
    · have hshape : ∃ mv hv, goodMinute mv ∧ noQuote hv ∧
          o1 = toL "minutes: \"" ++ mv ++ toL "\"" ++ toL " " ++
            toL "hours: \"" ++ hv ++ toL "\"" := by
        rcases accepts_union_inv hmh with hs | hs
        · exact graph_special_m_to_h_shape hs
        · exact graph_m_to_h_shape hs
      rcases hshape with ⟨mv, hv, hmv, hvq, rfl⟩
      refine ⟨p, none, true, hv, mv, some sv, hmv, hvq, hpq, trivial, hsq, Or.inl rfl, ?_⟩
      cases p <;>
        simp [renderPfxOpt, renderTimeToken, timeBody, optPfxF, optSfxF,
          renderFields, sepFields, renderField, List.append_assoc]
  rcases accepts_union_inv hBC with hB | hC
  · -- graph_h
    rcases graph_h_shape hB with ⟨p, hv, mv, sv, hpq, hvq, hmv, hsq, rfl⟩
    refine ⟨p, none, false, hv, mv, some sv, hmv, hvq, hpq, trivial, hsq, Or.inl rfl, ?_⟩
    cases p <;>
      simp [renderPfxOpt, renderTimeToken, timeBody, optPfxF, optSfxF,
        renderFields, sepFields, renderField, List.append_assoc]
  · -- final_graph_midnight
    rcases accepts_seq_inv hC with ⟨i1, o1, w1, i2, o2, w2, hp, h3, rfl, rfl, rfl⟩
    rcases optional_time_prefix_out hp with ⟨p, hpq, _, rfl⟩
    rcases accepts_seq_inv h3 with ⟨i1, o1, w1, i2, o2, w2, hd01, h4, rfl, rfl, rfl⟩
    rcases accepts_delete_zero_or_one_space_inv hd01 with ⟨rfl, _, _⟩
    rcases accepts_union_inv h4 with hmg | h5
    · rcases midnight_graph_shape hmg with ⟨q, mv, hqq, hmv, rfl⟩
      refine ⟨p, q, false, toL "0", mv, none, hmv, noQuote_zero, hpq, hqq, trivial,
        Or.inr ⟨rfl, rfl, rfl⟩, ?_⟩
      cases p <;> cases q <;>
        simp [renderPfxOpt, renderTimeToken, timeBody, optPfxF, optSfxF,
          renderFields, sepFields, renderField, List.append_assoc]
    rcases accepts_union_inv h5 with hv1 | h6
    · rcases graph_special_m_to_h_shape hv1 with ⟨mv, hv, hmv, hvq, rfl⟩
      refine ⟨p, none, true, hv, mv, none, hmv, hvq, hpq, trivial, trivial, Or.inl rfl, ?_⟩
      cases p <;>
        simp [renderPfxOpt, renderTimeToken, timeBody, optPfxF, optSfxF,
          renderFields, sepFields, renderField, List.append_assoc]
    rcases accepts_union_inv h6 with hv2 | hmm
    · rcases graph_m_to_h_shape hv2 with ⟨mv, hv, hmv, hvq, rfl⟩
      refine ⟨p, none, true, hv, mv, none, hmv, hvq, hpq, trivial, trivial, Or.inl rfl, ?_⟩
      cases p <;>
        simp [renderPfxOpt, renderTimeToken, timeBody, optPfxF, optSfxF,
          renderFields, sepFields, renderField, List.append_assoc]
    · rcases graph_midnight_and_m_shape hmm with ⟨mv, hmv, rfl⟩
      refine ⟨p, none, false, toL "0", mv, none, hmv, noQuote_zero, hpq, trivial, trivial,
        Or.inl rfl, ?_⟩
      cases p <;>
        simp [renderPfxOpt, renderTimeToken, timeBody, optPfxF, optSfxF,
          renderFields, sepFields, renderField, List.append_assoc]

/-
Reading a rendered field list back.  Values never contain a double quote,
which makes the rendering injective; the executable parser below witnesses
this and yields the uniqueness needed to refute mis-stated field orders.
-/

/-- The value carried by a field. -/
def fieldVal : TField → List Char
  | .pfx v => v
  | .hours v => v
  | .minutes v => v
  | .suffix v => v

/-- All field values in the list are quote-free. -/
def GoodFs (fs : List TField) : Prop := ∀ f ∈ fs, noQuote (fieldVal f)

/-- Read characters up to the closing double quote. -/
def parseVal : List Char → Option (List Char × List Char)
  | [] => none
  | c :: r =>
      if c = quoteChar then some ([], r)
      else
        match parseVal r with
        | some (v, rest) => some (c :: v, rest)
        | none => none

/-- Read one rendered field from the front of the string. -/
def parseField1 (s : List Char) : Option (TField × List Char) :=
  if (toL "prefix: \"").isPrefixOf s then
    (parseVal (s.drop 9)).map fun p => (TField.pfx p.1, p.2)
  else if (toL "hours: \"").isPrefixOf s then
    (parseVal (s.drop 8)).map fun p => (TField.hours p.1, p.2)
  else if (toL "minutes: \"").isPrefixOf s then
    (parseVal (s.drop 10)).map fun p => (TField.minutes p.1, p.2)
  else if (toL "suffix: \"").isPrefixOf s then
    (parseVal (s.drop 9)).map fun p => (TField.suffix p.1, p.2)
  else none

/-- Read a space-separated rendered field list. -/
def parseFields : Nat → List Char → Option (List TField)
  | 0, _ => none
  | fuel + 1, s =>
      match parseField1 s with
      | none => none
      | some (f, rest) =>
          if rest = [] then some [f]
          else
            match rest with
            | c :: r2 => if c = ' ' then (parseFields fuel r2).map (f :: ·) else none
            | [] => none

theorem parseVal_render {v rest : List Char} (hq : noQuote v) :
    parseVal (v ++ quoteChar :: rest) = some (v, rest) := by
  induction v with
  | nil => simp [parseVal]
  | cons c v ih =>
      have hc : c ≠ quoteChar := hq c (List.mem_cons_self c v)
      have hv : noQuote v := fun d hd => hq d (List.mem_cons_of_mem c hd)
      simp [parseVal, hc, ih hv]

theorem isPrefixOf_append_self (l r : List Char) : l.isPrefixOf (l ++ r) = true :=
  List.isPrefixOf_iff_prefix.mpr ⟨r, rfl⟩

theorem toL_quote : toL "\"" = [quoteChar] := rfl

/-- parseField1 reads back exactly the rendered field when its value is
quote-free. -/
theorem parseField1_render {f : TField} {rest : List Char}
    (hq : noQuote (fieldVal f)) :
    parseField1 (renderField f ++ rest) = some (f, rest) := by
  cases f with
  | pfx v =>
      have hqv : noQuote v := hq
      have h1 : renderField (.pfx v) ++ rest =
          toL "prefix: \"" ++ (v ++ (quoteChar :: rest)) := by
        simp [renderField, toL_quote, List.append_assoc]
      rw [h1]
      have hpre := isPrefixOf_append_self (toL "prefix: \"") (v ++ (quoteChar :: rest))
      have hdrop := List.drop_left (toL "prefix: \"") (v ++ (quoteChar :: rest))
      simp only [parseField1, hpre, if_pos]
      rw [show (9 : Nat) = (toL "prefix: \"").length from rfl, hdrop,
        parseVal_render hqv]
      rfl
  | hours v =>
      have hqv : noQuote v := hq
      have h1 : renderField (.hours v) ++ rest =
          toL "hours: \"" ++ (v ++ (quoteChar :: rest)) := by
        simp [renderField, toL_quote, List.append_assoc]
      rw [h1]
      have hno1 : (toL "prefix: \"").isPrefixOf
          (toL "hours: \"" ++ (v ++ (quoteChar :: rest))) = false := rfl
      have hpre := isPrefixOf_append_self (toL "hours: \"") (v ++ (quoteChar :: rest))
      have hdrop := List.drop_left (toL "hours: \"") (v ++ (quoteChar :: rest))
      simp only [parseField1, hno1, hpre, if_pos, Bool.false_eq_true, if_neg]
      rw [show (8 : Nat) = (toL "hours: \"").length from rfl, hdrop,
        parseVal_render hqv]
      rfl
  | minutes v =>
      have hqv : noQuote v := hq
      have h1 : renderField (.minutes v) ++ rest =
          toL "minutes: \"" ++ (v ++ (quoteChar :: rest)) := by
        simp [renderField, toL_quote, List.append_assoc]
      rw [h1]
      have hno1 : (toL "prefix: \"").isPrefixOf
          (toL "minutes: \"" ++ (v ++ (quoteChar :: rest))) = false := rfl
      have hno2 : (toL "hours: \"").isPrefixOf
          (toL "minutes: \"" ++ (v ++ (quoteChar :: rest))) = false := rfl
      have hpre := isPrefixOf_append_self (toL "minutes: \"") (v ++ (quoteChar :: rest))
      have hdrop := List.drop_left (toL "minutes: \"") (v ++ (quoteChar :: rest))
      simp only [parseField1, hno1, hno2, hpre, if_pos, Bool.false_eq_true, if_neg]
      rw [show (10 : Nat) = (toL "minutes: \"").length from rfl, hdrop,
        parseVal_render hqv]
      rfl
  | suffix v =>
      have hqv : noQuote v := hq
      have h1 : renderField (.suffix v) ++ rest =
          toL "suffix: \"" ++ (v ++ (quoteChar :: rest)) := by
        simp [renderField, toL_quote, List.append_assoc]
      rw [h1]
      have hno1 : (toL "prefix: \"").isPrefixOf
          (toL "suffix: \"" ++ (v ++ (quoteChar :: rest))) = false := rfl
      have hno2 : (toL "hours: \"").isPrefixOf
          (toL "suffix: \"" ++ (v ++ (quoteChar :: rest))) = false := rfl
      have hno3 : (toL "minutes: \"").isPrefixOf
          (toL "suffix: \"" ++ (v ++ (quoteChar :: rest))) = false := rfl
      have hpre := isPrefixOf_append_self (toL "suffix: \"") (v ++ (quoteChar :: rest))
      have hdrop := List.drop_left (toL "suffix: \"") (v ++ (quoteChar :: rest))
      simp only [parseField1, hno1, hno2, hno3, hpre, if_pos, Bool.false_eq_true, if_neg]
      rw [show (9 : Nat) = (toL "suffix: \"").length from rfl, hdrop,
        parseVal_render hqv]
      rfl

theorem toL_space : toL " " = [' '] := rfl

theorem parseFields_render :
    ∀ (fs : List TField) (fuel : Nat), fs ≠ [] → GoodFs fs →
      fs.length ≤ fuel → parseFields fuel (renderFields fs) = some fs := by
  intro fs
  induction fs with
  | nil => intro fuel h; exact absurd rfl h
  | cons f fs ih =>
      intro fuel _ hgood hle
      have hqf : noQuote (fieldVal f) := hgood f (List.mem_cons_self f fs)
      cases fuel with
      | zero => simp at hle
      | succ n =>
          cases fs with
          | nil =>
              have hp1 : parseField1 (renderField f) = some (f, []) := by
                have := @parseField1_render f [] hqf
                simpa using this
              have hr : renderFields [f] = renderField f := by
                simp [renderFields, sepFields]
              rw [hr]
              simp [parseFields, hp1]
          | cons g fs' =>
              have hr : renderFields (f :: g :: fs') =
                  renderField f ++ (' ' :: renderFields (g :: fs')) := by
                simp [renderFields, sepFields, toL_space, List.append_assoc]
              rw [hr]
              have hg : GoodFs (g :: fs') :=
                fun x hx => hgood x (List.mem_cons_of_mem f hx)
              have hlen : (g :: fs').length ≤ n := by
                simp only [List.length_cons] at hle ⊢
                omega
              simp [parseFields, parseField1_render hqf, ih n (by simp) hg hlen]

theorem parseFields_nil_input (fuel : Nat) : parseFields fuel [] = none := by
  cases fuel <;> rfl

/-- Rendering of field lists with quote-free values is injective. -/
theorem renderFields_good_inj {fs gs : List TField} (hf : GoodFs fs) (hg : GoodFs gs)
    (h : renderFields fs = renderFields gs) : fs = gs := by
  cases fs with
  | nil =>
      cases gs with
      | nil => rfl
      | cons g gs' =>
          exfalso
          have hp := parseFields_render (g :: gs') (g :: gs').length (by simp) hg le_rfl
          rw [← h] at hp
          rw [show renderFields ([] : List TField) = [] from rfl,
            parseFields_nil_input] at hp
          exact Option.noConfusion hp
  | cons f fs' =>
      cases gs with
      | nil =>
          exfalso
          have hp := parseFields_render (f :: fs') (f :: fs').length (by simp) hf le_rfl
          rw [h] at hp
          rw [show renderFields ([] : List TField) = [] from rfl,
            parseFields_nil_input] at hp
          exact Option.noConfusion hp
      | cons g gs' =>
          have h1 := parseFields_render (f :: fs')
            (max (f :: fs').length (g :: gs').length) (by simp) hf (le_max_left _ _)
          have h2 := parseFields_render (g :: gs')
            (max (f :: fs').length (g :: gs').length) (by simp) hg (le_max_right _ _)
          rw [h] at h1
          rw [h1] at h2
          exact Option.some.inj h2

/-- Rendering of whole time tokens with quote-free values is injective. -/
theorem renderTimeToken_good_inj {fs gs : List TField} (hf : GoodFs fs) (hg : GoodFs gs)
    (h : renderTimeToken fs = renderTimeToken gs) : fs = gs := by
  apply renderFields_good_inj hf hg
  have h1 : toL "time \x7b " ++ renderFields fs ++ toL " \x7d" =
      toL "time \x7b " ++ renderFields gs ++ toL " \x7d" := h
  rw [List.append_assoc, List.append_assoc] at h1
  have h2 := List.append_cancel_left h1
  exact List.append_cancel_right h2

theorem noQuote_of_all {v : List Char}
    (h : v.all (fun c => c != quoteChar) = true) : noQuote v := by
  intro c hc
  have := List.all_eq_true.mp h c hc
  simpa using this

theorem mem_optPfxF {p : Option (List Char)} {f : TField} (h : f ∈ optPfxF p) :
    ∃ v, p = some v ∧ f = TField.pfx v := by
  cases p with
  | none => cases h
  | some v => rcases List.mem_singleton.mp h with rfl; exact ⟨v, rfl, rfl⟩

theorem mem_optSfxF {s : Option (List Char)} {f : TField} (h : f ∈ optSfxF s) :
    ∃ v, s = some v ∧ f = TField.suffix v := by
  cases s with
  | none => cases h
  | some v => rcases List.mem_singleton.mp h with rfl; exact ⟨v, rfl, rfl⟩

/-- All values of a time body are quote-free. -/
theorem goodFs_timeBody {p q : Option (List Char)} {mF : Bool} {hv mv : List Char}
    {s : Option (List Char)} (hp : noQuoteO p) (hq : noQuoteO q) (hh : noQuote hv)
    (hm : noQuote mv) (hs : noQuoteO s) : GoodFs (timeBody p q mF hv mv s) := by
  intro f hf
  unfold timeBody at hf
  rcases List.mem_append.mp hf with hf | hf
  · rcases List.mem_append.mp hf with hf | hf
    · rcases List.mem_append.mp hf with hf | hf
      · rcases mem_optPfxF hf with ⟨v, rfl, rfl⟩; exact hp
      · rcases mem_optPfxF hf with ⟨v, rfl, rfl⟩; exact hq
    · cases mF <;> simp only [if_true, if_false, Bool.false_eq_true] at hf <;>
        rcases List.mem_cons.mp hf with rfl | hf <;>
        first
        | exact hh
        | exact hm
        | (rcases List.mem_singleton.mp hf with rfl
           first
           | exact hh
           | exact hm)
  · rcases mem_optSfxF hf with ⟨v, rfl, rfl⟩; exact hs

/-- The only minutes field of a time body carries the minutes value. -/
theorem minutes_mem_timeBody {p q : Option (List Char)} {mF : Bool}
    {hv mv v : List Char} {s : Option (List Char)}
    (h : TField.minutes v ∈ timeBody p q mF hv mv s) : v = mv := by
  unfold timeBody at h
  rcases List.mem_append.mp h with h | h
  · rcases List.mem_append.mp h with h | h
    · rcases List.mem_append.mp h with h | h
      · rcases mem_optPfxF h with ⟨x, _, hx⟩; exact TField.noConfusion hx
      · rcases mem_optPfxF h with ⟨x, _, hx⟩; exact TField.noConfusion hx
    · cases mF <;> simpa using h
  · rcases mem_optSfxF h with ⟨x, _, hx⟩; exact TField.noConfusion hx

/-- Rank of a field in the order claimed by the spec: prefix, hours,
minutes, suffix. -/
def fieldRank : TField → Nat
  | .pfx _ => 0
  | .hours _ => 1
  | .minutes _ => 2
  | .suffix _ => 3

/-- Rank of a field in the order used by the minutes-to-hour branches:
prefix, minutes, hours, suffix. -/
def fieldRankMH : TField → Nat
  | .pfx _ => 0
  | .minutes _ => 1
  | .hours _ => 2
  | .suffix _ => 3

/-- The field order the claim asserts for all branches. -/
def claimedOrder (fs : List TField) : Prop :=
  List.Chain' (fun a b => fieldRank a ≤ fieldRank b) fs

/-- The field order of the minutes-to-hour branches. -/
def mhOrder (fs : List TField) : Prop :=
  List.Chain' (fun a b => fieldRankMH a ≤ fieldRankMH b) fs

/-- Every time body is ordered either hours-minutes or minutes-hours. -/
theorem timeBody_order {p q : Option (List Char)} {mF : Bool} {hv mv : List Char}
    {s : Option (List Char)}
    (hc : q = none ∨ (mF = false ∧ s = none ∧ hv = toL "0")) :
    claimedOrder (timeBody p q mF hv mv s) ∨ mhOrder (timeBody p q mF hv mv s) := by
  cases mF with
  | false =>
      left
      cases p <;> cases q <;> cases s <;>
        simp [timeBody, optPfxF, optSfxF, claimedOrder, fieldRank,
          List.chain'_cons]
  | true =>
      have hq : q = none := by
        rcases hc with rfl | ⟨hmf, _, _⟩
        · rfl
        · exact absurd hmf (by simp)
      subst hq
      right
      cases p <;> cases s <;>
        simp [timeBody, optPfxF, optSfxF, mhOrder, fieldRankMH,
          List.chain'_cons]

/-- Claim C3 (amended): in every accepting parse of the time classifier the
emitted fields are ordered prefix, hours, minutes, suffix - except in the
minutes-to-hour branches, where the minutes field precedes the hours field
(order prefix, minutes, hours, suffix). -/
theorem claim_c3_time_field_order_amended :
    ∀ (i o : List Char) (w : Int), Accepts timeFst i o w →
      ∃ fs, GoodFs fs ∧ o = renderTimeToken fs ∧ (claimedOrder fs ∨ mhOrder fs) := by
  intro i o w h
  rcases timeFst_shape h with ⟨p, q, mF, hv, mv, s, hmv, hhv, hp, hq, hs, hcons, rfl⟩
  exact ⟨_, goodFs_timeBody hp hq hhv (goodMinute_noQuote hmv) hs, rfl,
    timeBody_order hcons⟩

/-- Claim C3 witness: the amended theorem applied to the docstring example
שלוש דקות לחצות. -/
theorem claim_c3_amended_witness :
    Accepts timeFst (toL "שלוש דקות לחצות")
      (toL "time \x7b minutes: \"57\" hours: \"23\" \x7d") (-70) ∧
    ∃ fs, GoodFs fs ∧
      toL "time \x7b minutes: \"57\" hours: \"23\" \x7d" = renderTimeToken fs ∧
      (claimedOrder fs ∨ mhOrder fs) := by
  have acc : Accepts timeFst (toL "שלוש דקות לחצות")
      (toL "time \x7b minutes: \"57\" hours: \"23\" \x7d") (-70) :=
    runExact_sound (by decide)
  exact ⟨acc, claim_c3_time_field_order_amended _ _ _ acc⟩

/-- Claim C3 counterexample: the input שלוש דקות לחצות is accepted by the
time classifier with the minutes field emitted before the hours field, so
the claimed field order prefix, hours, minutes, suffix fails for the
minutes-to-hour branches. -/
theorem claim_c3_counterexample :
    Accepts timeFst (toL "שלוש דקות לחצות")
      (toL "time \x7b minutes: \"57\" hours: \"23\" \x7d") (-70) ∧
    ¬ ∃ fs, GoodFs fs ∧
        toL "time \x7b minutes: \"57\" hours: \"23\" \x7d" = renderTimeToken fs ∧
        claimedOrder fs := by
  constructor
  · exact runExact_sound (by decide)
  · rintro ⟨fs, hg, he, hc⟩
    have hgood0 : GoodFs [TField.minutes (toL "57"), TField.hours (toL "23")] := by
      intro f hf
      rcases List.mem_cons.mp hf with rfl | hf
      · exact noQuote_of_all (by decide)
      · rcases List.mem_singleton.mp hf with rfl
        exact noQuote_of_all (by decide)
    have h0 : toL "time \x7b minutes: \"57\" hours: \"23\" \x7d" =
        renderTimeToken [TField.minutes (toL "57"), TField.hours (toL "23")] := rfl
    have hfs := renderTimeToken_good_inj hg hgood0 (he.symm.trans h0)
    rw [hfs] at hc
    simp [claimedOrder, List.chain'_cons, fieldRank] at hc

/-- Claim C9: in every accepting parse of the time classifier every emitted
minutes field value consists of exactly two digits. -/
theorem claim_c9_minutes_two_digits :
    ∀ (i o : List Char) (w : Int), Accepts timeFst i o w →
      ∃ fs, o = renderTimeToken fs ∧
        ∀ v, TField.minutes v ∈ fs → v.length = 2 ∧ ∀ c ∈ v, c.isDigit = true := by
  intro i o w h
  rcases timeFst_shape h with ⟨p, q, mF, hv, mv, s, hmv, _, _, _, _, _, rfl⟩
  refine ⟨_, rfl, ?_⟩
  intro v hvmem
  rcases minutes_mem_timeBody hvmem with rfl
  exact hmv

/-- Claim C9 witness: the two-digit minutes invariant at the docstring
example שתיים ועשרה בבוקר (minutes "10"). -/
theorem claim_c9_witness :
    Accepts timeFst (toL "שתיים ועשרה בבוקר")
      (toL "time \x7b hours: \"2\" minutes: \"10\" suffix: \"בוקר\" \x7d") (-70) ∧
    ∃ fs, toL "time \x7b hours: \"2\" minutes: \"10\" suffix: \"בוקר\" \x7d" =
        renderTimeToken fs ∧
      ∀ v, TField.minutes v ∈ fs → v.length = 2 ∧ ∀ c ∈ v, c.isDigit = true := by
  have acc : Accepts timeFst (toL "שתיים ועשרה בבוקר")
      (toL "time \x7b hours: \"2\" minutes: \"10\" suffix: \"בוקר\" \x7d") (-70) :=
    runExact_sound (by decide)
  exact ⟨acc, claim_c9_minutes_two_digits _ _ _ acc⟩

/-- Claim C4 (code evaluation): the non-midnight phrase רבע לשש (quarter to
six) is accepted by the time classifier without any suffix field - its
unique quote-free field list is minutes "45", hours "5" - contradicting
the rule that only midnight phrasings are suffix-exempt. -/
theorem claim_c4_code_eval :
    Accepts timeFst (toL "רבע לשש")
      (toL "time \x7b minutes: \"45\" hours: \"5\" \x7d") 0 ∧
    ∀ fs, GoodFs fs →
      toL "time \x7b minutes: \"45\" hours: \"5\" \x7d" = renderTimeToken fs →
      fs = [TField.minutes (toL "45"), TField.hours (toL "5")] := by
  constructor
  · exact runExact_sound (by decide)
  · intro fs hg he
    have hgood0 : GoodFs [TField.minutes (toL "45"), TField.hours (toL "5")] := by
      intro f hf
      rcases List.mem_cons.mp hf with rfl | hf
      · exact noQuote_of_all (by decide)
      · rcases List.mem_singleton.mp hf with rfl
        exact noQuote_of_all (by decide)
    have h0 : toL "time \x7b minutes: \"45\" hours: \"5\" \x7d" =
        renderTimeToken [TField.minutes (toL "45"), TField.hours (toL "5")] := rfl
    exact renderTimeToken_good_inj hg hgood0 (he.symm.trans h0)

/-- Claim C10 (code evaluation): the input בבחצות is accepted by the time
classifier with two prefix fields - the midnight branch carries its own
optional prefix inside the optional prefix final_graph_midnight already
adds - so a time token can contain more than one prefix field. -/
theorem claim_c10_code_eval :
    Accepts timeFst (toL "בבחצות")
      (toL "time \x7b prefix: \"ב\" prefix: \"ב\" hours: \"0\" minutes: \"00\" \x7d") 0 ∧
    ∀ fs, GoodFs fs →
      toL "time \x7b prefix: \"ב\" prefix: \"ב\" hours: \"0\" minutes: \"00\" \x7d" =
        renderTimeToken fs →
      fs = [TField.pfx (toL "ב"), TField.pfx (toL "ב"),
            TField.hours (toL "0"), TField.minutes (toL "00")] := by
  constructor
  · exact runExact_sound (by decide)
  · intro fs hg he
    have hgood0 : GoodFs [TField.pfx (toL "ב"), TField.pfx (toL "ב"),
        TField.hours (toL "0"), TField.minutes (toL "00")] := by
      intro f hf
      rcases List.mem_cons.mp hf with rfl | hf
      · exact noQuote_of_all (by decide)
      rcases List.mem_cons.mp hf with rfl | hf
      · exact noQuote_of_all (by decide)
      rcases List.mem_cons.mp hf with rfl | hf
      · exact noQuote_of_all (by decide)
      rcases List.mem_singleton.mp hf with rfl
      exact noQuote_of_all (by decide)
    have h0 : toL "time \x7b prefix: \"ב\" prefix: \"ב\" hours: \"0\" minutes: \"00\" \x7d" =
        renderTimeToken [TField.pfx (toL "ב"), TField.pfx (toL "ב"),
          TField.hours (toL "0"), TField.minutes (toL "00")] := rfl
    exact renderTimeToken_good_inj hg hgood0 (he.symm.trans h0)

theorem accepts_congr {f : Fst} {i i' o o' : List Char} {w w' : Int}
    (h : Accepts f i o w) (hi : i = i') (ho : o = o') (hw : w = w') :
    Accepts f i' o' w' := by
  subst hi; subst ho; subst hw; exact h

theorem accepts_star_cls_of {p : Char → Bool} {l : List Char}
    (h : ∀ c ∈ l, p c = true) : Accepts (.star (.cls p)) l l 0 := by
  induction l with
  | nil => exact Accepts.starNil
  | cons c l ih =>
      have hc : Accepts (.cls p) [c] [c] 0 :=
        Accepts.cls (h c (List.mem_cons_self c l))
      have hl := ih fun d hd => h d (List.mem_cons_of_mem c hd)
      exact accepts_congr (Accepts.starCons hc hl) rfl rfl rfl

theorem accepts_delete_space_of {l : List Char} (h : ∀ c ∈ l, isWS c = true) :
    Accepts delete_space l [] 0 :=
  Accepts.silence (accepts_star_cls_of h)

/-- Characterization of GraphFst.delete_tokens: accepting paths are exactly
the name-and-braces envelopes around an input of the body, with the
non-breaking-space rewrite applied to the body's output. -/
theorem delete_tokens_iff :
    ∀ (name : String) (body : Fst) (i o : List Char) (w : Int),
      Accepts (delete_tokens name body) i o w ↔
        ∃ ws1 ws2 ws3 bi bo,
          (∀ c ∈ ws1, isWS c = true) ∧ (∀ c ∈ ws2, isWS c = true) ∧
          (∀ c ∈ ws3, isWS c = true) ∧
          i = toL name ++ ws1 ++ toL "\x7b" ++ ws2 ++ bi ++ ws3 ++ toL "\x7d" ∧
          Accepts body bi bo w ∧
          o = bo.map convert_nbsp := by
  intro name body i o w
  constructor
  · intro h
    rcases accepts_mapOut_inv h with ⟨o0, h0, rfl⟩
    rcases accepts_seq_inv h0 with ⟨i1, o1, w1, i2, o2, w2, hname, h1, rfl, rfl, rfl⟩
    rcases accepts_deleteF_inv hname with ⟨rfl, rfl, rfl⟩
    rcases accepts_seq_inv h1 with ⟨i1, o1, w1, i2, o2, w2, hws1, h2, rfl, rfl, rfl⟩
    rcases accepts_delete_space_inv hws1 with ⟨rfl, rfl, hw1⟩
    rcases accepts_seq_inv h2 with ⟨i1, o1, w1, i2, o2, w2, hob, h3, rfl, rfl, rfl⟩
    rcases accepts_deleteF_inv hob with ⟨rfl, rfl, rfl⟩
    rcases accepts_seq_inv h3 with ⟨i1, o1, w1, i2, o2, w2, hws2, h4, rfl, rfl, rfl⟩
    rcases accepts_delete_space_inv hws2 with ⟨rfl, rfl, hw2⟩
    rcases accepts_seq_inv h4 with ⟨bi, bo, wb, i2, o2, w2, hbody, h5, rfl, rfl, rfl⟩
    rcases accepts_seq_inv h5 with ⟨i1, o1, w1, i2, o2, w2, hws3, hcb, rfl, rfl, rfl⟩
    rcases accepts_delete_space_inv hws3 with ⟨rfl, rfl, hw3⟩
    rcases accepts_deleteF_inv hcb with ⟨rfl, rfl, rfl⟩
    refine ⟨_, _, _, bi, bo, hw1, hw2, hw3, by simp [List.append_assoc], ?_, by simp⟩
    exact accepts_congr hbody rfl rfl (by omega)
  · rintro ⟨ws1, ws2, ws3, bi, bo, h1, h2, h3, rfl, hbody, rfl⟩
    have d : Accepts
        (.seq (deleteF name)
          (.seq delete_space
            (.seq (deleteF "\x7b")
              (.seq delete_space
                (.seq body
                  (.seq delete_space (deleteF "\x7d")))))))
        (toL name ++ (ws1 ++ (toL "\x7b" ++ (ws2 ++ (bi ++ (ws3 ++ toL "\x7d"))))))
        ([] ++ ([] ++ ([] ++ ([] ++ (bo ++ ([] ++ []))))))
        (0 + (0 + (0 + (0 + (w + (0 + 0)))))) :=
      Accepts.seq Accepts.cross
        (Accepts.seq (accepts_delete_space_of h1)
          (Accepts.seq Accepts.cross
            (Accepts.seq (accepts_delete_space_of h2)
              (Accepts.seq hbody
                (Accepts.seq (accepts_delete_space_of h3) Accepts.cross)))))
    have d2 := Accepts.mapOut (f := convert_nbsp) d
    exact accepts_congr d2 (by simp [List.append_assoc]) (by simp) (by omega)

/-- Claim C8: delete_tokens name body has an accepting path exactly on the
inputs consisting of the literal grammar name, whitespace, an opening
brace, whitespace, an input of body, whitespace and a closing brace; the
output is body's output with every residual non-breaking space converted
to an ordinary space, and the weight is body's weight; any input lacking
this structure has no accepting path. -/
theorem claim_c8_delete_tokens :
    ∀ (name : String) (body : Fst) (i o : List Char) (w : Int),
      Accepts (delete_tokens name body) i o w ↔
        ∃ ws1 ws2 ws3 bi bo,
          (∀ c ∈ ws1, isWS c = true) ∧ (∀ c ∈ ws2, isWS c = true) ∧
          (∀ c ∈ ws3, isWS c = true) ∧
          i = toL name ++ ws1 ++ toL "\x7b" ++ ws2 ++ bi ++ ws3 ++ toL "\x7d" ∧
          Accepts body bi bo w ∧
          o = bo.map convert_nbsp :=
  delete_tokens_iff

/-- Claim C8 witness: the characterization applied to a concrete token
body, input and output. -/
theorem claim_c8_witness :
    Accepts (delete_tokens "time" (accep "x")) (toL "time \x7b x \x7d") (toL "x") 0 := by
  refine (claim_c8_delete_tokens "time" (accep "x") _ _ _).mpr
    ⟨[' '], [' '], [' '], toL "x", toL "x", ?_, ?_, ?_, by decide, Accepts.cross, by decide⟩
  · intro c hc; rcases List.mem_singleton.mp hc with rfl; decide
  · intro c hc; rcases List.mem_singleton.mp hc with rfl; decide
  · intro c hc; rcases List.mem_singleton.mp hc with rfl; decide

/-
MeasureFst, verbalize kind (verbalizers/measure.py), mirrored local by
local.  The numeral sub-verbalizers cardinal.numbers and decimal.numbers
come from verbalizer classes that are not under src/ and are modelled
from the spec.
-/

/-- verbalizers/measure.py: optional_prefix - deletes the prefix tag and
re-emits its value followed by a hyphen joiner. -/
def optional_prefix_graph : Fst :=
  opt (.seq (deleteF "prefix:")
    (.seq delete_space
      (.seq (deleteF "\"")
        (.seq (plus NEMO_NOT_QUOTE)
          (.seq (insertF "-")
            (.seq (deleteF "\"") delete_space))))))

/-- verbalizers/measure.py: optional_sign - removes the negative attribute
and leaves the sign character. -/
def optional_sign_graph : Fst :=
  opt (.seq (deleteF "negative:")
    (.seq delete_space
      (.seq (deleteF "\"")
        (.seq (accep "-")
          (.seq (deleteF "\"") delete_space)))))

/-- Modelled from the spec: cardinal.numbers of the cardinal verbalizer
(verbalizers/cardinal.py is not under src/): reads integer: "<value>" and
emits the value. -/
def cardinal_numbers : Fst :=
  .seq (deleteF "integer:")
    (.seq delete_space
      (.seq (deleteF "\"") (.seq (plus NEMO_NOT_QUOTE) (deleteF "\""))))

/-- Modelled from the spec: decimal.numbers of the decimal verbalizer
(verbalizers/decimal.py is not under src/): reads integer_part: "<x>"
fractional_part: "<y>" and emits x.y. -/
def decimal_numbers : Fst :=
  .seq (deleteF "integer_part:")
    (.seq delete_space
      (.seq (deleteF "\"")
        (.seq (plus NEMO_NOT_QUOTE)
          (.seq (deleteF "\"")
            (.seq delete_space
              (.seq (deleteF "fractional_part:")
                (.seq delete_space
                  (.seq (deleteF "\"")
                    (.seq (insertF ".")
                      (.seq (plus NEMO_NOT_QUOTE) (deleteF "\"")))))))))))

/-- verbalizers/measure.py: graph_decimal. -/
def graph_decimal : Fst :=
  .seq (deleteF "decimal \x7b")
    (.seq delete_space (.seq decimal_numbers (.seq delete_space (deleteF "\x7d"))))

/-- verbalizers/measure.py: graph_cardinal. -/
def graph_cardinal : Fst :=
  .seq (deleteF "cardinal \x7b")
    (.seq delete_space (.seq cardinal_numbers (.seq delete_space (deleteF "\x7d"))))

/-- verbalizers/measure.py: unit - deletes the units tag and emits the unit
value (one or more non-space characters) adjacent to what precedes it. -/
def unit_graph : Fst :=
  .seq (deleteF "units:")
    (.seq delete_space
      (.seq (deleteF "\"")
        (.seq (plus (.cls fun c => c != ' '))
          (.seq (deleteF "\"") delete_space))))

/-- verbalizers/measure.py: spaced_unit - same for the spaced_units tag. -/
def spaced_unit_graph : Fst :=
  .seq (deleteF "spaced_units:")
    (.seq delete_space
      (.seq (deleteF "\"")
        (.seq (plus (.cls fun c => c != ' '))
          (.seq (deleteF "\"") delete_space))))

/-- verbalizers/measure.py: numbers_units = delete_space + (unit |
insert(" ") + spaced_unit). -/
def numbers_units : Fst :=
  .seq delete_space (.union unit_graph (.seq insert_space spaced_unit_graph))

/-- verbalizers/measure.py: numbers_graph = (graph_cardinal | graph_decimal)
+ numbers_units. -/
def numbers_graph : Fst := .seq (.union graph_cardinal graph_decimal) numbers_units

/-- verbalizers/measure.py: one_units = unit | (insert(" ") + spaced_unit). -/
def one_units : Fst := .union unit_graph (.seq insert_space spaced_unit_graph)

/-- verbalizers/measure.py: one_graph = delete_space + insert("1") +
one_units + delete("cardinal { integer: \"1\" }"). -/
def one_graph : Fst :=
  .seq delete_space
    (.seq (insertF "1")
      (.seq one_units (deleteF "cardinal \x7b integer: \"1\" \x7d")))

/-- verbalizers/measure.py: graph = optional_prefix + optional_sign +
(numbers_graph | one_graph). -/
def measure_verbalizer_graph : Fst :=
  .seq optional_prefix_graph
    (.seq optional_sign_graph (.union numbers_graph one_graph))

/-- verbalizers/measure.py: the verbalizer transducer of MeasureFst, with
the measure envelope removed by GraphFst.delete_tokens. -/
def measureFst : Fst := delete_tokens "measure" measure_verbalizer_graph

theorem accepts_plus_cls_inv {p : Char → Bool} {i o : List Char} {w : Int}
    (h : Accepts (plus (.cls p)) i o w) :
    o = i ∧ i ≠ [] ∧ w = 0 ∧ ∀ c ∈ i, p c = true := by
  rcases accepts_seq_inv h with ⟨i1, o1, w1, i2, o2, w2, h1, h2, rfl, rfl, rfl⟩
  rcases accepts_cls_inv h1 with ⟨c, hc, rfl, rfl, rfl⟩
  rcases accepts_star_cls_inv h2 with ⟨rfl, rfl, hall⟩
  refine ⟨rfl, by simp, rfl, ?_⟩
  intro d hd
  rcases List.mem_cons.mp hd with rfl | hd
  · exact hc
  · exact hall d hd

/-- The measure verbalizer's optional prefix either emits nothing or a
value followed by the hyphen joiner. -/
theorem optional_prefix_graph_out {i o : List Char} {w : Int}
    (h : Accepts optional_prefix_graph i o w) :
    w = 0 ∧ (o = [] ∨ ∃ pv, o = pv ++ toL "-") := by
  rcases accepts_opt_inv h with ⟨rfl, rfl, rfl⟩ | h
  · exact ⟨rfl, Or.inl rfl⟩
  · rcases accepts_seq_inv h with ⟨i1, o1, w1, i2, o2, w2, hd, h2, rfl, rfl, rfl⟩
    rcases accepts_deleteF_inv hd with ⟨rfl, rfl, rfl⟩
    rcases accepts_seq_inv h2 with ⟨i1, o1, w1, i2, o2, w2, hds, h3, rfl, rfl, rfl⟩
    rcases accepts_delete_space_inv hds with ⟨rfl, rfl, _⟩
    rcases accepts_seq_inv h3 with ⟨i1, o1, w1, i2, o2, w2, hq, h4, rfl, rfl, rfl⟩
    rcases accepts_deleteF_inv hq with ⟨rfl, rfl, rfl⟩
    rcases accepts_seq_inv h4 with ⟨pv, pvo, pw1, i2, o2, w2, hv, h5, rfl, rfl, rfl⟩
    rcases accepts_plus_cls_inv hv with ⟨rfl, _, rfl, _⟩
    rcases accepts_seq_inv h5 with ⟨i1, o1, w1, i2, o2, w2, hh, h6, rfl, rfl, rfl⟩
    rcases accepts_insertF_inv hh with ⟨rfl, rfl, rfl⟩
    rcases accepts_seq_inv h6 with ⟨i1, o1, w1, i2, o2, w2, hq2, hds2, rfl, rfl, rfl⟩
    rcases accepts_deleteF_inv hq2 with ⟨rfl, rfl, rfl⟩
    rcases accepts_delete_space_inv hds2 with ⟨rfl, rfl, _⟩
    exact ⟨rfl, Or.inr ⟨pvo, by simp⟩⟩

/-- The measure verbalizer's optional sign either emits nothing or the
sign character. -/
theorem optional_sign_graph_out {i o : List Char} {w : Int}
    (h : Accepts optional_sign_graph i o w) :
    w = 0 ∧ (o = [] ∨ o = toL "-") := by
  rcases accepts_opt_inv h with ⟨rfl, rfl, rfl⟩ | h
  · exact ⟨rfl, Or.inl rfl⟩
  · rcases accepts_seq_inv h with ⟨i1, o1, w1, i2, o2, w2, hd, h2, rfl, rfl, rfl⟩
    rcases accepts_deleteF_inv hd with ⟨rfl, rfl, rfl⟩
    rcases accepts_seq_inv h2 with ⟨i1, o1, w1, i2, o2, w2, hds, h3, rfl, rfl, rfl⟩
    rcases accepts_delete_space_inv hds with ⟨rfl, rfl, _⟩
    rcases accepts_seq_inv h3 with ⟨i1, o1, w1, i2, o2, w2, hq, h4, rfl, rfl, rfl⟩
    rcases accepts_deleteF_inv hq with ⟨rfl, rfl, rfl⟩
    rcases accepts_seq_inv h4 with ⟨i1, o1, w1, i2, o2, w2, hm, h5, rfl, rfl, rfl⟩
    rcases accepts_cross_inv hm with ⟨rfl, rfl, rfl⟩
    rcases accepts_seq_inv h5 with ⟨i1, o1, w1, i2, o2, w2, hq2, hds2, rfl, rfl, rfl⟩
    rcases accepts_deleteF_inv hq2 with ⟨rfl, rfl, rfl⟩
    rcases accepts_delete_space_inv hds2 with ⟨rfl, rfl, _⟩
    exact ⟨rfl, Or.inr (by simp)⟩

/-- A unit field: consumes the units tag and quotes and echoes the
space-free unit value. -/
theorem unit_graph_out {i o : List Char} {w : Int}
    (h : Accepts unit_graph i o w) :
    ∃ ws1 ws2, o ≠ [] ∧ (∀ c ∈ o, (c != ' ') = true) ∧
      (∀ c ∈ ws1, isWS c = true) ∧ (∀ c ∈ ws2, isWS c = true) ∧ w = 0 ∧
      i = toL "units:" ++ ws1 ++ toL "\"" ++ o ++ toL "\"" ++ ws2 := by
  rcases accepts_seq_inv h with ⟨i1, o1, w1, i2, o2, w2, hd, h2, rfl, rfl, rfl⟩
  rcases accepts_deleteF_inv hd with ⟨rfl, rfl, rfl⟩
  rcases accepts_seq_inv h2 with ⟨i1, o1, w1, i2, o2, w2, hds, h3, rfl, rfl, rfl⟩
  rcases accepts_delete_space_inv hds with ⟨rfl, rfl, hws1⟩
  rcases accepts_seq_inv h3 with ⟨i1, o1, w1, i2, o2, w2, hq, h4, rfl, rfl, rfl⟩
  rcases accepts_deleteF_inv hq with ⟨rfl, rfl, rfl⟩
  rcases accepts_seq_inv h4 with ⟨i1, o1, w1, i2, o2, w2, hu, h5, rfl, rfl, rfl⟩
  rcases accepts_plus_cls_inv hu with ⟨rfl, hne, rfl, hall⟩
  rcases accepts_seq_inv h5 with ⟨i1, o1, w1, i2, o2, w2, hq2, hds2, rfl, rfl, rfl⟩
  rcases accepts_deleteF_inv hq2 with ⟨rfl, rfl, rfl⟩
  rcases accepts_delete_space_inv hds2 with ⟨rfl, rfl, hws2⟩
  refine ⟨_, _, by simpa using hne, by simpa using hall, hws1, hws2, by omega, ?_⟩
  simp [List.append_assoc]

/-- A spaced unit field: same, for the spaced_units tag. -/
theorem spaced_unit_graph_out {i o : List Char} {w : Int}
    (h : Accepts spaced_unit_graph i o w) :
    ∃ ws1 ws2, o ≠ [] ∧ (∀ c ∈ o, (c != ' ') = true) ∧
      (∀ c ∈ ws1, isWS c = true) ∧ (∀ c ∈ ws2, isWS c = true) ∧ w = 0 ∧
      i = toL "spaced_units:" ++ ws1 ++ toL "\"" ++ o ++ toL "\"" ++ ws2 := by
  rcases accepts_seq_inv h with ⟨i1, o1, w1, i2, o2, w2, hd, h2, rfl, rfl, rfl⟩
  rcases accepts_deleteF_inv hd with ⟨rfl, rfl, rfl⟩
  rcases accepts_seq_inv h2 with ⟨i1, o1, w1, i2, o2, w2, hds, h3, rfl, rfl, rfl⟩
  rcases accepts_delete_space_inv hds with ⟨rfl, rfl, hws1⟩
  rcases accepts_seq_inv h3 with ⟨i1, o1, w1, i2, o2, w2, hq, h4, rfl, rfl, rfl⟩
  rcases accepts_deleteF_inv hq with ⟨rfl, rfl, rfl⟩
  rcases accepts_seq_inv h4 with ⟨i1, o1, w1, i2, o2, w2, hu, h5, rfl, rfl, rfl⟩
  rcases accepts_plus_cls_inv hu with ⟨rfl, hne, rfl, hall⟩
  rcases accepts_seq_inv h5 with ⟨i1, o1, w1, i2, o2, w2, hq2, hds2, rfl, rfl, rfl⟩
  rcases accepts_deleteF_inv hq2 with ⟨rfl, rfl, rfl⟩
  rcases accepts_delete_space_inv hds2 with ⟨rfl, rfl, hws2⟩
  refine ⟨_, _, by simpa using hne, by simpa using hall, hws1, hws2, by omega, ?_⟩
  simp [List.append_assoc]

/-- The numbers branch of the measure verbalizer: a numeral output followed
by the unit, adjacent for units and with one inserted space for
spaced_units. -/
theorem numbers_graph_shape {i o : List Char} {w : Int}
    (h : Accepts numbers_graph i o w) :
    ∃ (num u : List Char) (spaced : Bool) (x ws z : List Char),
      u ≠ [] ∧ (∀ c ∈ u, (c != ' ') = true) ∧ (∀ c ∈ ws, isWS c = true) ∧
      i = x ++ toL (if spaced then "spaced_units:" else "units:") ++ ws ++
          toL "\"" ++ u ++ toL "\"" ++ z ∧
      o = num ++ (if spaced then ' ' :: u else u) := by
  rcases accepts_seq_inv h with ⟨i1, num, w1, i2, o2, w2, hnum, hu, rfl, rfl, rfl⟩
  rcases accepts_seq_inv hu with ⟨iw, ow, wa, i2, o2, w2, hds, hun, rfl, rfl, rfl⟩
  rcases accepts_delete_space_inv hds with ⟨rfl, rfl, _⟩
  rcases accepts_union_inv hun with hunit | hsp
  · rcases unit_graph_out hunit with ⟨ws1, ws2, hne, hall, hws1, _, _, rfl⟩
    refine ⟨num, o2, false, i1 ++ iw, ws1, ws2, hne, hall, hws1, ?_, ?_⟩
    · simp [List.append_assoc]
    · simp
  · rcases accepts_seq_inv hsp with ⟨ia, oa, wa2, i2b, o2b, w2b, hins, hsu, rfl, rfl, rfl⟩
    rcases accepts_insertF_inv hins with ⟨rfl, rfl, rfl⟩
    rcases spaced_unit_graph_out hsu with ⟨ws1, ws2, hne, hall, hws1, _, _, rfl⟩
    refine ⟨num, o2b, true, i1 ++ iw, ws1, ws2, hne, hall, hws1, ?_, ?_⟩
    · simp [List.append_assoc]
    · simp [toL_space]

/-- The one-quantity branch of the measure verbalizer: it re-inserts the
digit 1 before the unit, with the same unit placement rule. -/
theorem one_graph_shape {i o : List Char} {w : Int}
    (h : Accepts one_graph i o w) :
    ∃ (u : List Char) (spaced : Bool) (x ws z : List Char),
      u ≠ [] ∧ (∀ c ∈ u, (c != ' ') = true) ∧ (∀ c ∈ ws, isWS c = true) ∧
      i = x ++ toL (if spaced then "spaced_units:" else "units:") ++ ws ++
          toL "\"" ++ u ++ toL "\"" ++ z ∧
      o = toL "1" ++ (if spaced then ' ' :: u else u) := by
  rcases accepts_seq_inv h with ⟨iw, ow, wa, i2, o2, w2, hds, h2, rfl, rfl, rfl⟩
  rcases accepts_delete_space_inv hds with ⟨rfl, rfl, _⟩
  rcases accepts_seq_inv h2 with ⟨i1, o1, w1, i2, o2, w2, hone, h3, rfl, rfl, rfl⟩
  rcases accepts_insertF_inv hone with ⟨rfl, rfl, rfl⟩
  rcases accepts_seq_inv h3 with ⟨i1, o1, w1, i2, o2, w2, hun, hdel, rfl, rfl, rfl⟩
  rcases accepts_deleteF_inv hdel with ⟨rfl, rfl, rfl⟩
  rcases accepts_union_inv hun with hunit | hsp
  · rcases unit_graph_out hunit with ⟨ws1, ws2, hne, hall, hws1, _, _, rfl⟩
    refine ⟨o1, false, iw, ws1,
      ws2 ++ toL "cardinal \x7b integer: \"1\" \x7d", hne, hall, hws1, ?_, ?_⟩
    · simp [List.append_assoc]
    · simp
  · rcases accepts_seq_inv hsp with ⟨ia, oa, wa2, i2b, o2b, w2b, hins, hsu, rfl, rfl, rfl⟩
    rcases accepts_insertF_inv hins with ⟨rfl, rfl, rfl⟩
    rcases spaced_unit_graph_out hsu with ⟨ws1, ws2, hne, hall, hws1, _, _, rfl⟩
    refine ⟨o2b, true, iw, ws1,
      ws2 ++ toL "cardinal \x7b integer: \"1\" \x7d", hne, hall, hws1, ?_, ?_⟩
    · simp [List.append_assoc]
    · simp [toL_space]

/-- Claim C5: in every accepting parse of the measure verbalizer the output
is prefix, sign, numeral, unit in that order; a unit introduced by the
units tag follows the numeral with no separating space and a unit
introduced by the spaced_units tag is preceded by exactly one inserted
space - the placement is tied to which unit tag the input carries, never
to the numeral. -/
theorem claim_c5_measure_unit_placement :
    ∀ (i o : List Char) (w : Int), Accepts measureFst i o w →
      ∃ (pfx sgn num u : List Char) (spaced : Bool) (x ws z : List Char),
        u ≠ [] ∧ (∀ c ∈ u, (c != ' ') = true) ∧ (∀ c ∈ ws, isWS c = true) ∧
        (pfx = [] ∨ ∃ pv, pfx = pv ++ toL "-") ∧ (sgn = [] ∨ sgn = toL "-") ∧
        i = x ++ toL (if spaced then "spaced_units:" else "units:") ++ ws ++
            toL "\"" ++ u ++ toL "\"" ++ z ∧
        o = List.map convert_nbsp
          (pfx ++ sgn ++ num ++ (if spaced then ' ' :: u else u)) := by
  intro i o w h
  have h' : Accepts (delete_tokens "measure" measure_verbalizer_graph) i o w := h
  rcases (delete_tokens_iff "measure" measure_verbalizer_graph i o w).mp h' with
    ⟨ws1, ws2, ws3, bi, bo, _, _, _, rfl, hbody, rfl⟩
  rcases accepts_seq_inv hbody with ⟨ip, pfx, wp, i2, o2, w2, hpfx, h2, rfl, rfl, rfl⟩
  rcases optional_prefix_graph_out hpfx with ⟨_, hpshape⟩
  rcases accepts_seq_inv h2 with ⟨isg, sgn, wsg, i2, o2, w2, hsgn, h3, rfl, rfl, rfl⟩
  rcases optional_sign_graph_out hsgn with ⟨_, hsshape⟩
  rcases accepts_union_inv h3 with hnum | hone
  · rcases numbers_graph_shape hnum with
      ⟨num, u, spaced, x, ws, z, hne, hall, hws, rfl, rfl⟩
    refine ⟨pfx, sgn, num, u, spaced,
      toL "measure" ++ ws1 ++ toL "\x7b" ++ ws2 ++ ip ++ isg ++ x, ws,
      z ++ ws3 ++ toL "\x7d", hne, hall, hws, hpshape, hsshape, ?_, ?_⟩
    · simp [List.append_assoc]
    · simp [List.append_assoc]
  · rcases one_graph_shape hone with
      ⟨u, spaced, x, ws, z, hne, hall, hws, rfl, rfl⟩
    refine ⟨pfx, sgn, toL "1", u, spaced,
      toL "measure" ++ ws1 ++ toL "\x7b" ++ ws2 ++ ip ++ isg ++ x, ws,
      z ++ ws3 ++ toL "\x7d", hne, hall, hws, hpshape, hsshape, ?_, ?_⟩
    · simp [List.append_assoc]
    · simp [List.append_assoc]

/-- Claim C5 witness: the spec example measure token with spaced unit מ״ג
rendered as 3 מ״ג. -/
theorem claim_c5_witness :
    Accepts measureFst
      (toL "measure \x7b cardinal \x7b integer: \"3\" \x7d spaced_units: \"מ״ג\" \x7d")
      (toL "3 מ״ג") 0 ∧
    ∃ (pfx sgn num u : List Char) (spaced : Bool) (x ws z : List Char),
      u ≠ [] ∧ (∀ c ∈ u, (c != ' ') = true) ∧ (∀ c ∈ ws, isWS c = true) ∧
      (pfx = [] ∨ ∃ pv, pfx = pv ++ toL "-") ∧ (sgn = [] ∨ sgn = toL "-") ∧
      toL "measure \x7b cardinal \x7b integer: \"3\" \x7d spaced_units: \"מ״ג\" \x7d" =
        x ++ toL (if spaced then "spaced_units:" else "units:") ++ ws ++
          toL "\"" ++ u ++ toL "\"" ++ z ∧
      toL "3 מ״ג" = List.map convert_nbsp
        (pfx ++ sgn ++ num ++ (if spaced then ' ' :: u else u)) := by
  have acc : Accepts measureFst
      (toL "measure \x7b cardinal \x7b integer: \"3\" \x7d spaced_units: \"מ״ג\" \x7d")
      (toL "3 מ״ג") 0 :=
    runExact_sound (by decide)
  exact ⟨acc, claim_c5_measure_unit_placement _ _ _ acc⟩

theorem accepts_plus_cls_of {p : Char → Bool} {l : List Char}
    (hne : l ≠ []) (hall : ∀ c ∈ l, p c = true) : Accepts (plus (.cls p)) l l 0 := by
  cases l with
  | nil => exact absurd rfl hne
  | cons c l =>
      have hc : Accepts (.cls p) [c] [c] 0 :=
        Accepts.cls (hall c (List.mem_cons_self c l))
      have hl := accepts_star_cls_of (p := p)
        (fun d hd => hall d (List.mem_cons_of_mem c hd))
      exact accepts_congr (Accepts.seq hc hl) rfl rfl rfl

/-- Claim C6: a measure token whose cardinal { integer: "1" } numeral
follows its unit field verbalizes as the digit 1 placed adjacent to the
unit (units tag) or one space before it (spaced_units tag); at the spec's
example token with unit % the rendering is exactly 1% on every accepting
path. -/
theorem claim_c6_measure_one :
    (∀ (u : List Char) (spaced : Bool), u ≠ [] → (∀ c ∈ u, (c != ' ') = true) →
      Accepts measureFst
        (toL "measure \x7b " ++ toL (if spaced then "spaced_units:" else "units:") ++
          toL " \"" ++ u ++ toL "\" cardinal \x7b integer: \"1\" \x7d \x7d")
        (List.map convert_nbsp (toL "1" ++ (if spaced then ' ' :: u else u))) 0) ∧
    (∀ (o : List Char) (w : Int),
      Accepts measureFst
        (toL "measure \x7b units: \"%\" cardinal \x7b integer: \"1\" \x7d \x7d") o w →
      o = toL "1%" ∧ w = 0) := by
  constructor
  · intro u spaced hne hall
    have hwsp : ∀ c ∈ [' '], isWS c = true := by
      intro c hc; rcases List.mem_singleton.mp hc with rfl; decide
    have hws : Accepts delete_space [' '] [] 0 := accepts_delete_space_of hwsp
    have hws0 : Accepts delete_space [] [] 0 :=
      accepts_delete_space_of (by intro c hc; cases hc)
    have hu : Accepts (plus (.cls fun c => c != ' ')) u u 0 :=
      accepts_plus_cls_of hne hall
    have e1 : toL "measure \x7b " =
        toL "measure" ++ ([' '] ++ (toL "\x7b" ++ [' '])) := rfl
    have e2 : toL " \"" = [' '] ++ toL "\"" := rfl
    have e3 : toL "\" cardinal \x7b integer: \"1\" \x7d \x7d" =
        toL "\"" ++ ([' '] ++ (toL "cardinal \x7b integer: \"1\" \x7d" ++
          ([' '] ++ toL "\x7d"))) := rfl
    cases spaced with
    | false =>
        have hunit : Accepts unit_graph
            (toL "units:" ++ ([' '] ++ (toL "\"" ++ (u ++ (toL "\"" ++ [' '])))))
            ([] ++ ([] ++ ([] ++ (u ++ ([] ++ [])))))
            (0 + (0 + (0 + (0 + (0 + 0))))) :=
          Accepts.seq Accepts.cross
            (Accepts.seq hws
              (Accepts.seq Accepts.cross
                (Accepts.seq hu (Accepts.seq Accepts.cross hws))))
        have hone : Accepts one_graph
            ([] ++ ([] ++ ((toL "units:" ++ ([' '] ++ (toL "\"" ++ (u ++ (toL "\"" ++ [' ']))))) ++
              toL "cardinal \x7b integer: \"1\" \x7d")))
            ([] ++ (toL "1" ++ (([] ++ ([] ++ ([] ++ (u ++ ([] ++ []))))) ++ [])))
            (0 + (0 + ((0 + (0 + (0 + (0 + (0 + 0))))) + 0))) :=
          Accepts.seq hws0
            (Accepts.seq Accepts.cross
              (Accepts.seq (Accepts.unionL hunit) Accepts.cross))
        have hbody : Accepts measure_verbalizer_graph
            ([] ++ ([] ++ ([] ++ ([] ++ ((toL "units:" ++ ([' '] ++ (toL "\"" ++ (u ++ (toL "\"" ++ [' ']))))) ++
              toL "cardinal \x7b integer: \"1\" \x7d")))))
            ([] ++ ([] ++ ([] ++ (toL "1" ++ (([] ++ ([] ++ ([] ++ (u ++ ([] ++ []))))) ++ [])))))
            (0 + (0 + (0 + (0 + ((0 + (0 + (0 + (0 + (0 + 0))))) + 0))))) :=
          Accepts.seq (Accepts.unionL Accepts.cross)
            (Accepts.seq (Accepts.unionL Accepts.cross) (Accepts.unionR hone))
        refine (delete_tokens_iff "measure" measure_verbalizer_graph _ _ 0).mpr
          ⟨[' '], [' '], [' '], _, _, hwsp, hwsp, hwsp, ?_,
            accepts_congr hbody rfl rfl (by omega), ?_⟩
        · rw [e1, e2, e3]
          simp [List.append_assoc]
        · simp
    | true =>
        have hunit : Accepts spaced_unit_graph
            (toL "spaced_units:" ++ ([' '] ++ (toL "\"" ++ (u ++ (toL "\"" ++ [' '])))))
            ([] ++ ([] ++ ([] ++ (u ++ ([] ++ [])))))
            (0 + (0 + (0 + (0 + (0 + 0))))) :=
          Accepts.seq Accepts.cross
            (Accepts.seq hws
              (Accepts.seq Accepts.cross
                (Accepts.seq hu (Accepts.seq Accepts.cross hws))))
        have hsunit : Accepts (.seq insert_space spaced_unit_graph)
            ([] ++ (toL "spaced_units:" ++ ([' '] ++ (toL "\"" ++ (u ++ (toL "\"" ++ [' ']))))))
            (toL " " ++ ([] ++ ([] ++ ([] ++ (u ++ ([] ++ []))))))
            (0 + (0 + (0 + (0 + (0 + (0 + 0)))))) :=
          Accepts.seq Accepts.cross hunit
        have hone : Accepts one_graph
            ([] ++ ([] ++ (([] ++ (toL "spaced_units:" ++ ([' '] ++ (toL "\"" ++ (u ++ (toL "\"" ++ [' '])))))) ++
              toL "cardinal \x7b integer: \"1\" \x7d")))
            ([] ++ (toL "1" ++ ((toL " " ++ ([] ++ ([] ++ ([] ++ (u ++ ([] ++ [])))))) ++ [])))
            (0 + (0 + ((0 + (0 + (0 + (0 + (0 + (0 + 0)))))) + 0))) :=
          Accepts.seq hws0
            (Accepts.seq Accepts.cross
              (Accepts.seq (Accepts.unionR hsunit) Accepts.cross))
        have hbody : Accepts measure_verbalizer_graph
            ([] ++ ([] ++ ([] ++ ([] ++ (([] ++ (toL "spaced_units:" ++ ([' '] ++ (toL "\"" ++ (u ++ (toL "\"" ++ [' '])))))) ++
              toL "cardinal \x7b integer: \"1\" \x7d")))))
            ([] ++ ([] ++ ([] ++ (toL "1" ++ ((toL " " ++ ([] ++ ([] ++ ([] ++ (u ++ ([] ++ [])))))) ++ [])))))
            (0 + (0 + (0 + (0 + ((0 + (0 + (0 + (0 + (0 + (0 + 0)))))) + 0))))) :=
          Accepts.seq (Accepts.unionL Accepts.cross)
            (Accepts.seq (Accepts.unionL Accepts.cross) (Accepts.unionR hone))
        refine (delete_tokens_iff "measure" measure_verbalizer_graph _ _ 0).mpr
          ⟨[' '], [' '], [' '], _, _, hwsp, hwsp, hwsp, ?_,
            accepts_congr hbody rfl rfl (by omega), ?_⟩
        · rw [e1, e2, e3]
          simp [List.append_assoc]
        · simp [toL_space]
  · intro o w h
    have hmem := runExact_complete (by decide) h
    have hone : ∀ p ∈ runExact measureFst
        (toL "measure \x7b units: \"%\" cardinal \x7b integer: \"1\" \x7d \x7d"),
        p = (toL "1%", 0) := by decide
    have := hone _ hmem
    exact ⟨congrArg Prod.fst this, congrArg Prod.snd this⟩

/-- Claim C6 witness: the one-quantity rule applied to the spec's spaced
unit example, rendering 1 ס״מ. -/
theorem claim_c6_witness :
    Accepts measureFst
      (toL "measure \x7b spaced_units: \"ס״מ\" cardinal \x7b integer: \"1\" \x7d \x7d")
      (toL "1 ס״מ") 0 := by
  have h := claim_c6_measure_one.1 (toL "ס״מ") true (by decide) (by decide)
  exact accepts_congr h rfl rfl rfl

/-
DateFst (taggers/date.py), mirrored local by local.  The ordinal and
cardinal building blocks come from OrdinalFst / CardinalFst (not under
src/) and the month tables from data files; both are modelled from the
spec and the docstring examples.
-/

/-- Modelled from the spec: OrdinalFst().graph (ordinal.py is not under
src/): spoken masculine ordinal word to digit string. -/
def ordinalPairs : List (String × String) :=
  [("ראשון", "1"), ("שני", "2"), ("שלישי", "3"), ("רביעי", "4"),
   ("חמישי", "5"), ("שישי", "6"), ("שביעי", "7"), ("שמיני", "8"),
   ("תשיעי", "9"), ("עשירי", "10")]

/-- Modelled from the spec: CardinalFst().graph_two_digit (cardinal.py is
not under src/): spoken one- or two-digit cardinal word to digit string. -/
def twoDigitPairs : List (String × String) :=
  [("אחד", "1"), ("שניים", "2"), ("שלושה", "3"), ("ארבעה", "4"),
   ("חמישה", "5"), ("שישה", "6"), ("שבעה", "7"), ("שמונה", "8"),
   ("תשעה", "9"), ("עשרה", "10"), ("תשע עשרה", "19"), ("עשרים", "20"),
   ("שלושים", "30"), ("ארבעים", "40")]

/-- Modelled from the spec: CardinalFst().graph_thousands: thousands-scale
year readings. -/
def thousandsPairs : List (String × String) :=
  [("אלף תשע מאות שמונים ושלוש", "1983"), ("אלף תשע מאות שמונים ותשע", "1989"),
   ("אלפיים ושתיים עשרה", "2012"), ("אלפיים", "2000"), ("אלף", "1000")]

/-- Modelled from the spec: data/months.tsv keeps each month name as
itself (docstring of _get_month_name_graph: march maps to march). -/
def monthNamesList : List String :=
  ["ינואר", "פברואר", "מרץ", "אפריל", "מאי", "יוני", "יולי", "אוגוסט",
   "ספטמבר", "אוקטובר", "נובמבר", "דצמבר"]

/-- The identity month-name table used by month_names. -/
def monthsPairs : List (String × String) := monthNamesList.map fun m => (m, m)

/-- Modelled from the spec: data/months_name2number.tsv stored as
number-to-name rows; the grammar uses pynini.invert of it, reading a month
name and emitting the month number (docstring: מאי gives month "5"). -/
def monthsName2NumberTsv : List (String × String) :=
  [("1", "ינואר"), ("2", "פברואר"), ("3", "מרץ"), ("4", "אפריל"),
   ("5", "מאי"), ("6", "יוני"), ("7", "יולי"), ("8", "אוגוסט"),
   ("9", "ספטמבר"), ("10", "אוקטובר"), ("11", "נובמבר"), ("12", "דצמבר")]

/-- Modelled from the spec: data/months_number2number.tsv, spoken
ordinal-style month numbers, also used through pynini.invert. -/
def monthsNumber2NumberTsv : List (String × String) :=
  [("1", "אחד"), ("2", "שניים")]

/-- date.py: prefix_graph = string_file(data/prefix.tsv). -/
def date_prefix_lex : Fst := stringMapF prefixPairs

/-- date.py: day_graph = add_weight(two_digits_graph | ordinal_graph, -0.7)
wrapped in the day field. -/
def day_graph : Fst :=
  .seq (insertF "day: \"")
    (.seq (.weight (-70) (.union (stringMapF twoDigitPairs) (stringMapF ordinalPairs)))
      (insertF "\""))

/-- date.py: optional_day_prefix_graph. -/
def optional_day_prefix_graph : Fst :=
  opt (.seq (insertF "day_prefix: \"")
    (.seq date_prefix_lex (.seq (insertF "\"") insert_space)))

/-- date.py: month_names = _get_month_name_graph(). -/
def month_names : Fst := stringMapF monthsPairs

/-- date.py: month_names_graph - the month name kept as text. -/
def month_names_graph : Fst :=
  .seq (insertF "month: \"") (.seq month_names (insertF "\""))

/-- date.py: month_name2number_graph - insert month field around
pynini.invert(month_name2number). -/
def month_name2number_graph : Fst :=
  .seq (insertF "month: \"") (.seq (invertMapF monthsName2NumberTsv) (insertF "\""))

/-- date.py: month_number2number_graph. -/
def month_number2number_graph : Fst :=
  .seq (insertF "month: \"") (.seq (invertMapF monthsNumber2NumberTsv) (insertF "\""))

/-- date.py: all_month_graph = month_name2number_graph |
month_number2number_graph. -/
def all_month_graph : Fst := .union month_name2number_graph month_number2number_graph

/-- date.py: month_prefix_graph. -/
def month_prefix_graph : Fst :=
  .seq (insertF "month_prefix: \"")
    (.seq date_prefix_lex (.seq (insertF "\"") insert_space))

/-- date.py: optional_month_prefix_graph. -/
def optional_month_prefix_graph : Fst := opt month_prefix_graph

/-- date.py: _get_year_graph - two two-digit groups or a thousands-scale
reading. -/
def year_graph : Fst :=
  .union
    (.seq (stringMapF twoDigitPairs) (.seq delete_space (stringMapF twoDigitPairs)))
    (stringMapF thousandsPairs)

/-- date.py: graph_year = delete_extra_space + year field. -/
def graph_year : Fst :=
  .seq delete_extra_space
    (.seq (insertF "year: \"") (.seq year_graph (insertF "\"")))

/-- date.py: graph_dm - day plus month name rendered as its number. -/
def graph_dm : Fst :=
  .seq optional_day_prefix_graph
    (.seq day_graph
      (.seq insert_space
        (.seq delete_space
          (.seq optional_month_prefix_graph month_name2number_graph))))

/-- date.py: graph_dmy. -/
def graph_dmy : Fst :=
  .seq optional_day_prefix_graph
    (.seq day_graph
      (.seq insert_space
        (.seq delete_space
          (.seq month_prefix_graph (.seq all_month_graph graph_year)))))

/-- date.py: graph_my - month name kept as text plus year. -/
def graph_my : Fst :=
  .seq optional_month_prefix_graph (.seq month_names_graph graph_year)

/-- date.py: year_only_prefix = closure(prefix_graph, 0, 1) + ("שנה"|"שנת"). -/
def year_only_prefix_graph : Fst :=
  .seq (opt date_prefix_lex) (.union (accep "שנה") (accep "שנת"))

/-- date.py: graph_y_only. -/
def graph_y_only : Fst :=
  .seq (insertF "year_only_prefix: \"")
    (.seq year_only_prefix_graph (.seq (insertF "\"") graph_year))

/-- date.py: the classifier transducer of DateFst with its envelope. -/
def dateFst : Fst :=
  add_tokens "date" (.union graph_dm (.union graph_dmy (.union graph_my graph_y_only)))

theorem accepts_invertMap_inv {ps : List (String × String)} {i o : List Char} {w : Int}
    (h : Accepts (invertMapF ps) i o w) :
    ∃ p ∈ ps, i = toL p.2 ∧ o = toL p.1 ∧ w = 0 := by
  rcases accepts_stringMap_inv h with ⟨q, hq, hi, ho, hw⟩
  rcases List.mem_map.mp hq with ⟨p, hp, rfl⟩
  exact ⟨p, hp, hi, ho, hw⟩

/-- Claim C7: in the month+year branch (graph_my) the month field keeps the
spoken month name as literal text, while in the day+month branch
(graph_dm) the month field carries the number the name-to-number lexicon
assigns to the month name read from the input. -/
theorem claim_c7_date_month_rendering :
    (∀ (i o : List Char) (w : Int), Accepts graph_my i o w →
      ∃ (ipfx opfx : List Char) (m : String) (iy oy : List Char),
        m ∈ monthNamesList ∧
        i = ipfx ++ toL m ++ iy ∧
        o = opfx ++ toL "month: \"" ++ toL m ++ toL "\"" ++ toL " " ++
            toL "year: \"" ++ oy ++ toL "\"") ∧
    (∀ (i o : List Char) (w : Int), Accepts graph_dm i o w →
      ∃ (ix ox : List Char) (num name : String),
        (num, name) ∈ monthsName2NumberTsv ∧
        i = ix ++ toL name ∧
        o = ox ++ toL "month: \"" ++ toL num ++ toL "\"") := by
  constructor
  · intro i o w h
    rcases accepts_seq_inv h with ⟨ip, op, wp, i2, o2, w2, hpfx, h2, rfl, rfl, rfl⟩
    rcases accepts_seq_inv h2 with ⟨im, om, wm, iy, oy, wy, hm, hy, rfl, rfl, rfl⟩
    rcases accepts_seq_inv hm with ⟨i1, o1, w1, i2, o2, w2, hins, hm2, rfl, rfl, rfl⟩
    rcases accepts_insertF_inv hins with ⟨rfl, rfl, rfl⟩
    rcases accepts_seq_inv hm2 with ⟨i1, o1, w1, i2, o2, w2, hname, hq, rfl, rfl, rfl⟩
    rcases accepts_insertF_inv hq with ⟨rfl, rfl, rfl⟩
    rcases accepts_stringMap_inv hname with ⟨p, hp, rfl, rfl, rfl⟩
    rcases List.mem_map.mp hp with ⟨m, hmem, rfl⟩
    rcases accepts_seq_inv hy with ⟨i1, o1, w1, i2, o2, w2, hdes, hy2, rfl, rfl, rfl⟩
    rcases accepts_delete_extra_space_out hdes with ⟨rfl, _⟩
    rcases accepts_seq_inv hy2 with ⟨i1, o1, w1, i2, o2, w2, hins2, hy3, rfl, rfl, rfl⟩
    rcases accepts_insertF_inv hins2 with ⟨rfl, rfl, rfl⟩
    rcases accepts_seq_inv hy3 with ⟨iy2, oy2, wy2, i2, o2, w2, hyear, hq2, rfl, rfl, rfl⟩
    rcases accepts_insertF_inv hq2 with ⟨rfl, rfl, rfl⟩
    refine ⟨ip, op, m, i1 ++ iy2, oy2, hmem, by simp [List.append_assoc],
      by simp [List.append_assoc]⟩
  · intro i o w h
    rcases accepts_seq_inv h with ⟨ip, op, wp, i2, o2, w2, hdp, h2, rfl, rfl, rfl⟩
    rcases accepts_seq_inv h2 with ⟨idy, ody, wd, i2, o2, w2, hday, h3, rfl, rfl, rfl⟩
    rcases accepts_seq_inv h3 with ⟨i1, o1, w1, i2, o2, w2, hins, h4, rfl, rfl, rfl⟩
    rcases accepts_insertF_inv hins with ⟨rfl, rfl, rfl⟩
    rcases accepts_seq_inv h4 with ⟨ids, ods, ws1, i2, o2, w2, hds, h5, rfl, rfl, rfl⟩
    rcases accepts_delete_space_inv hds with ⟨rfl, rfl, _⟩
    rcases accepts_seq_inv h5 with ⟨imp, omp, wmp, i2, o2, w2, hmp, h6, rfl, rfl, rfl⟩
    rcases accepts_seq_inv h6 with ⟨i1, o1, w1, i2, o2, w2, hins2, h7, rfl, rfl, rfl⟩
    rcases accepts_insertF_inv hins2 with ⟨rfl, rfl, rfl⟩
    rcases accepts_seq_inv h7 with ⟨i1, o1, w1, i2, o2, w2, hm, hq, rfl, rfl, rfl⟩
    rcases accepts_insertF_inv hq with ⟨rfl, rfl, rfl⟩
    rcases accepts_invertMap_inv hm with ⟨p, hp, rfl, rfl, rfl⟩
    refine ⟨ip ++ idy ++ ids ++ imp, op ++ ody ++ toL " " ++ omp, p.1, p.2, hp,
      by simp [List.append_assoc], by simp [List.append_assoc]⟩

/-- Claim C7 witness: both branch facts at the docstring examples
מרץ אלף תשע מאות שמונים ותשע (month kept as text) and העשירי ביוני
(month name rendered as its number). -/
theorem claim_c7_witness :
    (Accepts graph_my (toL "מרץ אלף תשע מאות שמונים ותשע")
      (toL "month: \"מרץ\" year: \"1989\"") 0 ∧
     ∃ (ipfx opfx : List Char) (m : String) (iy oy : List Char),
       m ∈ monthNamesList ∧
       toL "מרץ אלף תשע מאות שמונים ותשע" = ipfx ++ toL m ++ iy ∧
       toL "month: \"מרץ\" year: \"1989\"" = opfx ++ toL "month: \"" ++ toL m ++
         toL "\"" ++ toL " " ++ toL "year: \"" ++ oy ++ toL "\"") ∧
    (Accepts graph_dm (toL "העשירי ביוני")
      (toL "day_prefix: \"ה\" day: \"10\" month_prefix: \"ב\" month: \"6\"") (-70) ∧
     ∃ (ix ox : List Char) (num name : String),
       (num, name) ∈ monthsName2NumberTsv ∧
       toL "העשירי ביוני" = ix ++ toL name ∧
       toL "day_prefix: \"ה\" day: \"10\" month_prefix: \"ב\" month: \"6\"" =
         ox ++ toL "month: \"" ++ toL num ++ toL "\"") := by
  have acc1 : Accepts graph_my (toL "מרץ אלף תשע מאות שמונים ותשע")
      (toL "month: \"מרץ\" year: \"1989\"") 0 :=
    runExact_sound (by decide)
  have acc2 : Accepts graph_dm (toL "העשירי ביוני")
      (toL "day_prefix: \"ה\" day: \"10\" month_prefix: \"ב\" month: \"6\"") (-70) :=
    runExact_sound (by decide)
  exact ⟨⟨acc1, claim_c7_date_month_rendering.1 _ _ _ acc1⟩,
    ⟨acc2, claim_c7_date_month_rendering.2 _ _ _ acc2⟩⟩

/-
ClassifyFst (taggers/tokenize_and_classify.py).  The whitelist, word,
punctuation, cardinal, decimal and measure taggers come from tagger files
that are not under src/ and are modelled from the spec; the time and date
taggers are the ones built above.
-/

/-- The ASCII punctuation characters (string.punctuation) used by
NEMO_PUNCT. -/
def punctChars : List Char := toL "!\"#$%&'()*+,-./:;<=>?@[\\]^_`\x7b|\x7d~"

/-- The Hebrew letters of NEMO_ALPHA. -/
def hebrewChars : List Char := toL "אבגדהוזחטיכלמםנןסעפףצץקרשת"

/-- The declared alphabet classes of the spec: digits, Hebrew letters,
punctuation and whitespace. -/
def inAlphabet (c : Char) : Bool :=
  c.isDigit || hebrewChars.contains c || punctChars.contains c || isWS c

/-- Modelled from the spec: WordFst (taggers/word.py is not under src/),
the generic word fallback - any nonempty run of non-space characters,
tagged name: "...". -/
def word_fst : Fst :=
  .seq (insertF "name: \"") (.seq (plus NEMO_NOT_SPACE) (insertF "\""))

/-- Modelled from the spec: PunctuationFst (taggers/punctuation.py is not
under src/): a punctuation character tagged name: "...". -/
def punct_fst : Fst :=
  .seq (insertF "name: \"")
    (.seq (.cls fun c => punctChars.contains c) (insertF "\""))

/-- Modelled from the spec: WhiteListFst (taggers/whitelist.py is not under
src/), parametrized by the whitelist lexicon configured at construction:
surface phrase to replacement, tagged name: "...". -/
def whitelist_fst (wl : List (String × String)) : Fst :=
  .seq (insertF "name: \"") (.seq (stringMapF wl) (insertF "\""))

/-- Modelled from the spec: the CardinalFst tagger (taggers/cardinal.py is
not under src/): a spoken cardinal word or a bare digit sequence, tagged
cardinal { integer: "..." }. -/
def cardinal_fst : Fst :=
  .seq (insertF "cardinal \x7b integer: \"")
    (.seq (.union (stringMapF twoDigitPairs) (plus NEMO_DIGIT))
      (insertF "\" \x7d"))

/-- Modelled from the spec: the DecimalFst tagger (taggers/decimal.py is
not under src/), reduced to a representative decimal phrase. -/
def decimal_fst : Fst :=
  stringMapF
    [("שלוש נקודה ארבע", "decimal \x7b integer_part: \"3\" fractional_part: \"4\" \x7d")]

/-- Modelled from the spec: the MeasureFst tagger (taggers/measure.py is
not under src/), reduced to a representative measure phrase. -/
def measure_tagger_fst : Fst :=
  stringMapF
    [("חמישה אחוזים", "measure \x7b cardinal \x7b integer: \"5\" \x7d units: \"%\" \x7d")]

/-- tokenize_and_classify.py lines 75-86: the weighted alternation of all
category taggers (weights in hundredths: whitelist 101, time 110, date
109, decimal 110, measure 110, cardinal 110, word fallback 10000; the
ordinal branch is commented out in the source). -/
def classify (wl : List (String × String)) : Fst :=
  .union (.weight 101 (whitelist_fst wl))
    (.union (.weight 110 timeFst)
      (.union (.weight 109 dateFst)
        (.union (.weight 110 decimal_fst)
          (.union (.weight 110 measure_tagger_fst)
            (.union (.weight 110 cardinal_fst)
              (.weight 10000 word_fst))))))

/-- tokenize_and_classify.py line 88: a wrapped punctuation token. -/
def punct_token : Fst :=
  .seq (insertF "tokens \x7b ") (.seq (.weight 110 punct_fst) (insertF " \x7d"))

/-- tokenize_and_classify.py line 89: a wrapped classified token. -/
def token_fst (wl : List (String × String)) : Fst :=
  .seq (insertF "tokens \x7b ") (.seq (classify wl) (insertF " \x7d"))

/-- tokenize_and_classify.py lines 90-92: optional punctuation tokens
around the primary token. -/
def token_plus_punct (wl : List (String × String)) : Fst :=
  .seq (.star (.seq punct_token insert_space))
    (.seq (token_fst wl) (.star (.seq insert_space punct_token)))

/-- tokenize_and_classify.py lines 94-95: the sentence-level classifier -
tokens separated by whitespace collapsed to one space, with surrounding
whitespace deleted (concatenation is associative, so the grouping chosen
here is semantically the same as the source's). -/
def classifyFst (wl : List (String × String)) : Fst :=
  .seq delete_space
    (.seq (token_plus_punct wl)
      (.seq (.star (.seq delete_extra_space (token_plus_punct wl))) delete_space))

theorem dropWhile_head_false {p : Char → Bool} :
    ∀ (l : List Char) (c : Char) (r : List Char),
      l.dropWhile p = c :: r → p c = false := by
  intro l
  induction l with
  | nil => intro c r h; cases h
  | cons a l ih =>
      intro c r h
      by_cases ha : p a
      · rw [List.dropWhile_cons_of_pos ha] at h
        exact ih c r h
      · rw [List.dropWhile_cons_of_neg ha] at h
        rcases List.cons.inj h with ⟨rfl, rfl⟩
        exact Bool.eq_false_iff.mpr ha

theorem length_dropWhile_le {p : Char → Bool} :
    ∀ (l : List Char), (l.dropWhile p).length ≤ l.length := by
  intro l
  induction l with
  | nil => simp
  | cons a l ih =>
      by_cases ha : p a
      · rw [List.dropWhile_cons_of_pos ha]
        exact le_trans ih (by simp)
      · rw [List.dropWhile_cons_of_neg ha]

/-- The word fallback token: any nonempty run of non-whitespace characters
is accepted by token_plus_punct through the word branch. -/
theorem word_token_accepts (wl : List (String × String)) {t : List Char}
    (hne : t ≠ []) (hall : ∀ c ∈ t, isWS c = false) :
    Accepts (token_plus_punct wl) t
      (toL "tokens \x7b " ++ (toL "name: \"" ++ t ++ toL "\"") ++ toL " \x7d")
      10000 := by
  have hword : Accepts word_fst t (toL "name: \"" ++ (t ++ toL "\"")) 0 := by
    have hp : Accepts (plus NEMO_NOT_SPACE) t t 0 :=
      accepts_plus_cls_of hne (by
        intro c hc
        simp [hall c hc])
    exact accepts_congr (Accepts.seq Accepts.cross (Accepts.seq hp Accepts.cross))
      (by simp) rfl rfl
  have hcl : Accepts (classify wl) t (toL "name: \"" ++ (t ++ toL "\"")) 10000 := by
    have := Accepts.weight (q := 10000) hword
    exact Accepts.unionR (Accepts.unionR (Accepts.unionR (Accepts.unionR
      (Accepts.unionR (Accepts.unionR (accepts_congr this rfl rfl (by omega)))))))
  have htok : Accepts (token_fst wl) t
      (toL "tokens \x7b " ++ ((toL "name: \"" ++ (t ++ toL "\"")) ++ toL " \x7d"))
      10000 := by
    have := Accepts.seq (Accepts.cross (i := []) (o := toL "tokens \x7b "))
      (Accepts.seq hcl (Accepts.cross (i := []) (o := toL " \x7d")))
    exact accepts_congr this (by simp) rfl (by omega)
  have := Accepts.seq (Accepts.starNil (a := .seq punct_token insert_space))
    (Accepts.seq htok (Accepts.starNil (a := .seq insert_space punct_token)))
  exact accepts_congr this (by simp) (by simp [List.append_assoc]) (by omega)

/-- Core of the coverage argument: any string beginning with a
non-whitespace character is segmented into word tokens by the token list
grammar followed by trailing-whitespace deletion. -/
theorem coverage_core (wl : List (String × String)) :
    ∀ (n : Nat) (t : List Char), t.length ≤ n →
      (∃ c r, t = c :: r ∧ isWS c = false) →
      ∃ o w, Accepts
        (.seq (token_plus_punct wl)
          (.seq (.star (.seq delete_extra_space (token_plus_punct wl))) delete_space))
        t o w := by
  intro n
  induction n with
  | zero =>
      rintro t hle ⟨c, r, rfl, -⟩
      simp at hle
  | succ n ih =>
      rintro t hle ⟨c, r, rfl, hc⟩
      obtain ⟨w1, rest, hw1eq, hresteq, hsplit⟩ :
          ∃ w1 rest, w1 = List.takeWhile (fun d => !(isWS d)) (c :: r) ∧
            rest = List.dropWhile (fun d => !(isWS d)) (c :: r) ∧
            w1 ++ rest = c :: r :=
        ⟨_, _, rfl, rfl, List.takeWhile_append_dropWhile _ _⟩
      have hw1ne : w1 ≠ [] := by
        rw [hw1eq, List.takeWhile_cons_of_pos (by simp [hc])]
        simp
      have hw1all : ∀ d ∈ w1, isWS d = false := by
        intro d hd
        rw [hw1eq] at hd
        simpa using List.mem_takeWhile_imp hd
      have htok := word_token_accepts wl hw1ne hw1all
      by_cases hrne : List.dropWhile isWS rest = []
      · have hwsrest : ∀ d ∈ rest, isWS d = true := List.dropWhile_eq_nil_iff.mp hrne
        have hds : Accepts delete_space rest [] 0 := accepts_delete_space_of hwsrest
        have hfin := Accepts.seq htok
          (Accepts.seq (Accepts.starNil (a := .seq delete_extra_space (token_plus_punct wl))) hds)
        exact ⟨_, _, accepts_congr hfin (by simpa using hsplit) rfl rfl⟩
      · obtain ⟨ws, t2, hwseq, ht2eq, hsplit2⟩ :
            ∃ ws t2, ws = List.takeWhile isWS rest ∧
              t2 = List.dropWhile isWS rest ∧ ws ++ t2 = rest :=
          ⟨_, _, rfl, rfl, List.takeWhile_append_dropWhile _ _⟩
        have ht2ne : t2 ≠ [] := by rw [ht2eq]; exact hrne
        obtain ⟨c2, r2, hr2⟩ := List.exists_cons_of_ne_nil ht2ne
        have hc2 : isWS c2 = false := by
          apply dropWhile_head_false rest c2 r2
          rw [← ht2eq, hr2]
        have hrestne : rest ≠ [] := by
          intro hr0
          rw [hr0] at hrne
          exact hrne rfl
        obtain ⟨cr, rr, hcr⟩ := List.exists_cons_of_ne_nil hrestne
        have hcrws : isWS cr = true := by
          have := dropWhile_head_false (c :: r) cr rr (by rw [← hresteq, hcr])
          simpa using this
        have hwsne : ws ≠ [] := by
          rw [hwseq, hcr, List.takeWhile_cons_of_pos hcrws]
          simp
        have hwsall : ∀ d ∈ ws, isWS d = true := by
          intro d hd
          rw [hwseq] at hd
          exact List.mem_takeWhile_imp hd
        have ht2len : t2.length ≤ n := by
          have h1 : w1.length + rest.length = (c :: r).length := by
            rw [← hsplit]; simp
          have h2 : t2.length ≤ rest.length := by
            rw [ht2eq]; exact length_dropWhile_le rest
          have h3 : 1 ≤ w1.length := by
            rcases List.exists_cons_of_ne_nil hw1ne with ⟨cw, rw2, hcw⟩
            rw [hcw]; simp
          simp only [List.length_cons] at hle h1
          omega
        rcases ih t2 ht2len ⟨c2, r2, hr2, hc2⟩ with ⟨o2, w2', hacc2⟩
        rcases accepts_seq_inv hacc2 with ⟨ia, oa, wa, ib, ob, wb, ha, hb, hteq, -, -⟩
        rcases accepts_seq_inv hb with ⟨ic, oc, wc, idd, od, wd, hstar2, hds2, hbeq, -, -⟩
        have hdes : Accepts delete_extra_space ws (toL " ") 0 := by
          have hplus : Accepts (plus (.cls isWS)) ws ws 0 :=
            accepts_plus_cls_of hwsne hwsall
          exact accepts_congr
            (Accepts.seq (Accepts.silence hplus) (Accepts.cross (i := []) (o := toL " ")))
            (by simp) rfl rfl
        have hstar3 : Accepts (.star (.seq delete_extra_space (token_plus_punct wl)))
            (ws ++ ia ++ ic) (toL " " ++ oa ++ oc) (0 + wa + wc) :=
          accepts_congr (Accepts.starCons (Accepts.seq hdes ha) hstar2)
            (by simp [List.append_assoc]) (by simp [List.append_assoc]) rfl
        have hfin := Accepts.seq htok (Accepts.seq hstar3 hds2)
        refine ⟨_, _, accepts_congr hfin ?_ rfl rfl⟩
        rw [← hsplit, ← hsplit2, hteq, hbeq]
        simp [List.append_assoc]

/-- A concrete whitelist used to instantiate the configurable whitelist
lexicon in the classifier claims. -/
def c1demo_wl : List (String × String) := [("דוקטור", "דר")]

/-- Claim C1 (amended): every sentence over the declared alphabet classes
that contains at least one non-whitespace character has an accepting
parse in the sentence-level classifier (through the word fallback for any
whitelist lexicon). -/
theorem claim_c1_coverage_amended :
    ∀ (wl : List (String × String)) (s : List Char),
      (∀ c ∈ s, inAlphabet c = true) → (∃ c ∈ s, isWS c = false) →
      ∃ o w, Accepts (classifyFst wl) s o w := by
  intro wl s _ hnws
  obtain ⟨lead, t, hleadeq, hteq, hsplit⟩ :
      ∃ lead t, lead = List.takeWhile isWS s ∧ t = List.dropWhile isWS s ∧
        lead ++ t = s :=
    ⟨_, _, rfl, rfl, List.takeWhile_append_dropWhile _ _⟩
  have htne : t ≠ [] := by
    intro ht0
    rw [ht0] at hteq
    rcases hnws with ⟨c, hcmem, hcws⟩
    have hall := List.dropWhile_eq_nil_iff.mp hteq.symm
    rw [hall c hcmem] at hcws
    cases hcws
  obtain ⟨c, r, hcr⟩ := List.exists_cons_of_ne_nil htne
  have hc : isWS c = false := by
    apply dropWhile_head_false s c r
    rw [← hteq, hcr]
  have hleadws : ∀ d ∈ lead, isWS d = true := by
    intro d hd
    rw [hleadeq] at hd
    exact List.mem_takeWhile_imp hd
  rcases coverage_core wl t.length t le_rfl ⟨c, r, hcr, hc⟩ with ⟨o, w, hcore⟩
  refine ⟨_, _, accepts_congr
    (Accepts.seq (accepts_delete_space_of hleadws) hcore) hsplit rfl rfl⟩

/-- Claim C1 witness: the amended coverage theorem at the sentence
שלום, 12 with a concrete whitelist. -/
theorem claim_c1_witness :
    ∃ o w, Accepts (classifyFst c1demo_wl) (toL "שלום, 12") o w :=
  claim_c1_coverage_amended c1demo_wl (toL "שלום, 12") (by decide) (by decide)

/-- Claim C1 counterexample: the whitespace-only sentence consists only of
characters of the declared alphabet classes, yet the classifier has no
accepting parse for it - coverage fails for sentences without a
non-whitespace character. -/
theorem claim_c1_counterexample :
    (∀ c ∈ toL " ", inAlphabet c = true) ∧
    ∀ (o : List Char) (w : Int), ¬ Accepts (classifyFst c1demo_wl) (toL " ") o w := by
  refine ⟨by decide, ?_⟩
  intro o w h
  have hmem := runExact_complete (by decide) h
  have hnil : runExact (classifyFst c1demo_wl) (toL " ") = [] := by decide
  rw [hnil] at hmem
  cases hmem

/-- The whitelist lexicon of the C2 counterexample: it contains the phrase
עשרלאחת, which the time grammar also accepts (ten to one, with no
space required around the deleted ל). -/
def c2wl : List (String × String) := [("עשרלאחת", "10:50")]

/-- The C2 counterexample span. -/
def c2input : List Char := toL "עשרלאחת"

/-- The time-tagged sentence token the classifier selects for c2input. -/
def c2timeToken : List Char :=
  toL "tokens \x7b time \x7b minutes: \"50\" hours: \"12\" \x7d \x7d"

/-- The whitelist-tagged sentence token for c2input. -/
def c2wlToken : List Char := toL "tokens \x7b name: \"10:50\" \x7d"

/-- Claim C2 counterexample: the span עשרלאחת is accepted both by the
whitelist grammar (fixed weight 1.01) and by the time grammar (fixed
weight 1.10), yet every minimum-weight parse of the sentence classifier is
the time-tagged one (total weight 0.40, thanks to the internal -0.7
number-reading weight), not the whitelist-tagged one (total 1.01) - the category with the
lower fixed weight does not always win. -/
theorem claim_c2_counterexample :
    Accepts (whitelist_fst c2wl) c2input (toL "name: \"10:50\"") 0 ∧
    Accepts timeFst c2input (toL "time \x7b minutes: \"50\" hours: \"12\" \x7d") (-70) ∧
    Accepts (classifyFst c2wl) c2input c2timeToken 40 ∧
    Accepts (classifyFst c2wl) c2input c2wlToken 101 ∧
    c2timeToken ≠ c2wlToken ∧
    ∀ o, (∃ w, Accepts (classifyFst c2wl) c2input o w ∧
          ∀ o' w', Accepts (classifyFst c2wl) c2input o' w' → w ≤ w') →
      o = c2timeToken := by
  refine ⟨runExact_sound (by decide), runExact_sound (by decide),
    runExact_sound (by decide), runExact_sound (by decide), by decide, ?_⟩
  rintro o ⟨w, hacc, hmin⟩
  have htime : Accepts (classifyFst c2wl) c2input c2timeToken 40 :=
    runExact_sound (by decide)
  have hle : w ≤ 40 := hmin _ _ htime
  have hmem := runExact_complete (by decide) hacc
  have hkey : ∀ p ∈ runExact (classifyFst c2wl) c2input,
      40 ≤ p.2 ∧ (p.2 ≤ 40 → p.1 = c2timeToken) := by decide
  exact (hkey _ hmem).2 hle

/-- The whitelist lexicon of the amended C2 instance: a bare digit
sequence as a whitelist entry. -/
def c2dwl : List (String × String) := [("123", "מספר")]

/-- The bare digit sequence span. -/
def c2dinput : List Char := toL "123"

/-- The whitelist-tagged sentence token for c2dinput. -/
def c2dwlToken : List Char := toL "tokens \x7b name: \"מספר\" \x7d"

/-- Claim C2 (amended): among the categories able to tag a span, the one
with the lower total path weight (fixed alternation weight plus internal
weights) wins in the minimum-weight parse; in particular a bare digit
sequence accepted both by the whitelist grammar (1.01) and by the
cardinal grammar (1.10), neither with internal weights, resolves to
whitelist, while categories with internal negative weights (the -0.7
number-reading weight of time and date) can beat whitelist's lower fixed
weight. -/
theorem claim_c2_amended :
    Accepts (whitelist_fst c2dwl) c2dinput (toL "name: \"מספר\"") 0 ∧
    Accepts cardinal_fst c2dinput (toL "cardinal \x7b integer: \"123\" \x7d") 0 ∧
    Accepts (classifyFst c2dwl) c2dinput c2dwlToken 101 ∧
    Accepts (classifyFst c2dwl) c2dinput
      (toL "tokens \x7b cardinal \x7b integer: \"123\" \x7d \x7d") 110 ∧
    ∀ o, (∃ w, Accepts (classifyFst c2dwl) c2dinput o w ∧
          ∀ o' w', Accepts (classifyFst c2dwl) c2dinput o' w' → w ≤ w') →
      o = c2dwlToken := by
  refine ⟨runExact_sound (by decide), runExact_sound (by decide),
    runExact_sound (by decide), runExact_sound (by decide), ?_⟩
  rintro o ⟨w, hacc, hmin⟩
  have hwl : Accepts (classifyFst c2dwl) c2dinput c2dwlToken 101 :=
    runExact_sound (by decide)
  have hle : w ≤ 101 := hmin _ _ hwl
  have hmem := runExact_complete (by decide) hacc
  have hkey : ∀ p ∈ runExact (classifyFst c2dwl) c2dinput,
      101 ≤ p.2 ∧ (p.2 ≤ 101 → p.1 = c2dwlToken) := by decide
  exact (hkey _ hmem).2 hle

/-- Claim C2 witness: the amended theorem's selection clause applied to
the minimum-weight parse of the digit-sequence span. -/
theorem claim_c2_amended_witness : c2dwlToken = c2dwlToken := by
  have hwl : Accepts (classifyFst c2dwl) c2dinput c2dwlToken 101 :=
    runExact_sound (by decide)
  have hmin : ∀ o' w', Accepts (classifyFst c2dwl) c2dinput o' w' → (101 : Int) ≤ w' := by
    intro o' w' h
    have hmem := runExact_complete (by decide) h
    have hkey : ∀ p ∈ runExact (classifyFst c2dwl) c2dinput, (101 : Int) ≤ p.2 := by decide
    exact hkey _ hmem
  exact claim_c2_amended.2.2.2.2 c2dwlToken ⟨101, hwl, hmin⟩
